import Mathlib

/-!
Verification of the minimal PNG sprite generator (generate_sprites.py).

The Python source is shallowly embedded: pure functions become Lean
functions on Nat lists (a byte is a Nat known to be below 256), the
imperative accumulation loops become structural recursions producing the
same byte sequences, and the Python runtime errors that the code can hit
(struct.error from struct.pack, ValueError from tuple unpacking and from
bytes() range checks, IndexError from list index assignment) become an
explicit Except error monad.

The zlib library calls (zlib.compress, zlib.crc32) and the standard PNG
decoder referred to by the specification are not part of the repository;
they are modelled from the spec: crc32 is the standard reflected-0xEDB88320
algorithm, zlib compression is modelled as a standard-compliant zlib
stream made of stored DEFLATE blocks with an adler32 trailer, and the
decoder is a standard-shaped PNG reader restricted to the features the
encoder emits (bit depth 8, color types 2 and 6, filter type 0, one zlib
stream).
-/

namespace PNGGen

/-- A pixel is the embedding of a Python tuple of channel values. -/
abbrev Pixel := List Nat

/-- A row of pixels. -/
abbrev Row := List Pixel

/-- A pixel buffer: a list of rows. -/
abbrev Buffer := List Row

/-- All entries of the list are bytes (below 256). -/
def IsBytes (l : List Nat) : Prop := ∀ b ∈ l, b < 256

instance (l : List Nat) : Decidable (IsBytes l) := by
  unfold IsBytes; infer_instance

/-- Big-endian 4-byte encoding of a natural number, as produced by
struct.pack with format >I. -/
def be32 (n : Nat) : List Nat :=
  [n / 2 ^ 24 % 256, n / 2 ^ 16 % 256, n / 2 ^ 8 % 256, n % 256]

theorem be32_length (n : Nat) : (be32 n).length = 4 := rfl

theorem be32_isBytes (n : Nat) : IsBytes (be32 n) := by
  intro b hb
  simp only [be32, List.mem_cons, List.not_mem_nil, or_false] at hb
  rcases hb with h | h | h | h <;> subst h <;> omega

/-- One reflected CRC-32 division round with the PNG/ZIP polynomial
0xEDB88320. -/
def crcRound (c : Nat) : Nat :=
  if c % 2 = 1 then c / 2 ^^^ 0xEDB88320 else c / 2

/-- Process one byte of input into the running CRC register. -/
def crcUpdate (c b : Nat) : Nat := crcRound^[8] (c ^^^ b)

/-- Modelled from the spec: the standard CRC32 of zlib.crc32 - register
initialized to all ones, each byte folded in with eight reflected
polynomial rounds, final complement. -/
def crc32 (l : List Nat) : Nat :=
  (l.foldl crcUpdate 0xFFFFFFFF) ^^^ 0xFFFFFFFF

theorem xor_lt_32 {a b : Nat} (ha : a < 2 ^ 32) (hb : b < 2 ^ 32) :
    a ^^^ b < 2 ^ 32 :=
  Nat.xor_lt_two_pow ha hb

theorem crcRound_lt {c : Nat} (hc : c < 2 ^ 32) : crcRound c < 2 ^ 32 := by
  unfold crcRound
  split
  · exact xor_lt_32 (by omega) (by norm_num)
  · omega

theorem crcRound_iter_lt {c : Nat} (k : Nat) (hc : c < 2 ^ 32) :
    crcRound^[k] c < 2 ^ 32 := by
  induction k generalizing c with
  | zero => simpa using hc
  | succ k ih =>
    rw [Function.iterate_succ_apply]
    exact ih (crcRound_lt hc)

theorem crcRound_inj {c₁ c₂ : Nat} (h₁ : c₁ < 2 ^ 32) (h₂ : c₂ < 2 ^ 32)
    (h : crcRound c₁ = crcRound c₂) : c₁ = c₂ := by
  have hbit : ∀ a : Nat, a < 2 ^ 31 → 2 ^ 31 ≤ a ^^^ 0xEDB88320 := by
    intro a ha
    have htest : (a ^^^ 0xEDB88320).testBit 31 = true := by
      rw [Nat.testBit_xor]
      have ha31 : a.testBit 31 = false := Nat.testBit_lt_two_pow ha
      rw [ha31]
      decide
    exact Nat.testBit_implies_ge htest
  unfold crcRound at h
  by_cases p₁ : c₁ % 2 = 1 <;> by_cases p₂ : c₂ % 2 = 1 <;>
    simp only [p₁, p₂, if_true, if_false, if_pos, if_neg] at h
  · have := congrArg (fun x => x ^^^ 0xEDB88320) h
    simp only [Nat.xor_cancel_right] at this
    omega
  · exfalso
    have hle : 2 ^ 31 ≤ c₁ / 2 ^^^ 0xEDB88320 := hbit _ (by omega)
    have : c₂ / 2 < 2 ^ 31 := by omega
    omega
  · exfalso
    have hle : 2 ^ 31 ≤ c₂ / 2 ^^^ 0xEDB88320 := hbit _ (by omega)
    have : c₁ / 2 < 2 ^ 31 := by omega
    omega
  · omega

theorem crcRound_iter_inj {c₁ c₂ : Nat} (k : Nat) (h₁ : c₁ < 2 ^ 32)
    (h₂ : c₂ < 2 ^ 32) (h : crcRound^[k] c₁ = crcRound^[k] c₂) : c₁ = c₂ := by
  induction k generalizing c₁ c₂ with
  | zero => simpa using h
  | succ k ih =>
    rw [Function.iterate_succ_apply, Function.iterate_succ_apply] at h
    exact crcRound_inj h₁ h₂ (ih (crcRound_lt h₁) (crcRound_lt h₂) h)

theorem crcUpdate_lt {c b : Nat} (hc : c < 2 ^ 32) (hb : b < 2 ^ 32) :
    crcUpdate c b < 2 ^ 32 :=
  crcRound_iter_lt 8 (xor_lt_32 hc hb)

theorem crcUpdate_inj_state {c₁ c₂ b : Nat} (h₁ : c₁ < 2 ^ 32)
    (h₂ : c₂ < 2 ^ 32) (hb : b < 2 ^ 32) (hne : c₁ ≠ c₂) :
    crcUpdate c₁ b ≠ crcUpdate c₂ b := by
  intro h
  apply hne
  have := crcRound_iter_inj 8 (xor_lt_32 h₁ hb) (xor_lt_32 h₂ hb) h
  have := congrArg (fun x => x ^^^ b) this
  simpa [Nat.xor_cancel_right] using this

theorem crcUpdate_inj_byte {c b₁ b₂ : Nat} (hc : c < 2 ^ 32)
    (h₁ : b₁ < 2 ^ 32) (h₂ : b₂ < 2 ^ 32) (hne : b₁ ≠ b₂) :
    crcUpdate c b₁ ≠ crcUpdate c b₂ := by
  intro h
  apply hne
  have hx : c ^^^ b₁ = c ^^^ b₂ :=
    crcRound_iter_inj 8 (xor_lt_32 hc h₁) (xor_lt_32 hc h₂) h
  have hcx := congrArg (fun x => c ^^^ x) hx
  simpa [← Nat.xor_assoc, Nat.xor_self, Nat.zero_xor] using hcx

theorem foldl_crcUpdate_lt {l : List Nat} (hl : IsBytes l) {c : Nat}
    (hc : c < 2 ^ 32) : l.foldl crcUpdate c < 2 ^ 32 := by
  induction l generalizing c with
  | nil => simpa using hc
  | cons b t ih =>
    have hb : b < 256 := hl b (List.mem_cons_self b t)
    exact ih (fun x hx => hl x (List.mem_cons_of_mem b hx))
      (crcUpdate_lt hc (by omega))

theorem foldl_crcUpdate_ne {l : List Nat} (hl : IsBytes l) {c₁ c₂ : Nat}
    (h₁ : c₁ < 2 ^ 32) (h₂ : c₂ < 2 ^ 32) (hne : c₁ ≠ c₂) :
    l.foldl crcUpdate c₁ ≠ l.foldl crcUpdate c₂ := by
  induction l generalizing c₁ c₂ with
  | nil => simpa using hne
  | cons b t ih =>
    have hb : b < 256 := hl b (List.mem_cons_self b t)
    simp only [List.foldl_cons]
    exact ih (fun x hx => hl x (List.mem_cons_of_mem b hx))
      (crcUpdate_lt h₁ (by omega)) (crcUpdate_lt h₂ (by omega))
      (crcUpdate_inj_state h₁ h₂ (by omega) hne)

theorem crc32_lt {l : List Nat} (hl : IsBytes l) : crc32 l < 2 ^ 32 := by
  unfold crc32
  exact xor_lt_32 (foldl_crcUpdate_lt hl (by norm_num)) (by norm_num)

/-- Changing a single byte of the input changes the CRC32. -/
theorem crc32_single_byte_ne {pre post : List Nat} {b b' : Nat}
    (hpre : IsBytes pre) (hpost : IsBytes post) (hb : b < 256)
    (hb' : b' < 256) (hne : b ≠ b') :
    crc32 (pre ++ b :: post) ≠ crc32 (pre ++ b' :: post) := by
  unfold crc32
  intro h
  have h2 : (pre ++ b :: post).foldl crcUpdate 0xFFFFFFFF =
      (pre ++ b' :: post).foldl crcUpdate 0xFFFFFFFF := by
    have := congrArg (fun x => x ^^^ 0xFFFFFFFF) h
    simpa [Nat.xor_cancel_right] using this
  rw [List.foldl_append, List.foldl_append, List.foldl_cons,
    List.foldl_cons] at h2
  set s := pre.foldl crcUpdate 0xFFFFFFFF with hs
  have hslt : s < 2 ^ 32 := foldl_crcUpdate_lt hpre (by norm_num)
  exact foldl_crcUpdate_ne hpost (crcUpdate_lt hslt (by omega))
    (crcUpdate_lt hslt (by omega))
    (crcUpdate_inj_byte hslt (by omega) (by omega) hne) h2

def adlerStep (s : Nat × Nat) (b : Nat) : Nat × Nat :=
  ((s.1 + b) % 65521, (s.2 + (s.1 + b) % 65521) % 65521)

/-- Modelled from the spec: the adler32 checksum that terminates a zlib
stream. -/
def adler32 (l : List Nat) : Nat :=
  (l.foldl adlerStep (1, 0)).2 * 65536 + (l.foldl adlerStep (1, 0)).1

theorem foldl_adlerStep_lt (l : List Nat) :
    ∀ s : Nat × Nat, s.1 < 65521 → s.2 < 65521 →
    (l.foldl adlerStep s).1 < 65521 ∧ (l.foldl adlerStep s).2 < 65521 := by
  induction l with
  | nil => intro s h1 h2; exact ⟨h1, h2⟩
  | cons b t ih =>
    intro s h1 h2
    simp only [List.foldl_cons]
    exact ih _ (Nat.mod_lt _ (by norm_num)) (Nat.mod_lt _ (by norm_num))

theorem adler32_lt (l : List Nat) : adler32 l < 2 ^ 32 := by
  have := foldl_adlerStep_lt l (1, 0) (by norm_num) (by norm_num)
  unfold adler32
  omega

/-- Split a byte stream into pieces of at most 65535 bytes, the size cap
of a stored DEFLATE block.  The fuel argument is the length of the list. -/
def chunksGo : Nat → List Nat → List (List Nat)
  | 0, l => [l]
  | f + 1, l =>
    if l.length ≤ 65535 then [l]
    else l.take 65535 :: chunksGo f (l.drop 65535)

def chunks65535 (l : List Nat) : List (List Nat) := chunksGo l.length l

/-- Modelled from the spec: one stored (uncompressed) DEFLATE block -
header byte holding BFINAL (1 for the last block) and BTYPE=00, then LEN
and its one's complement NLEN little-endian, then the raw bytes. -/
def storedBlock (flag : Nat) (c : List Nat) : List Nat :=
  flag :: c.length % 256 :: c.length / 256 ::
    (65535 - c.length) % 256 :: (65535 - c.length) / 256 :: c

def encodeBlocks : List (List Nat) → List Nat
  | [] => []
  | [c] => storedBlock 1 c
  | c :: cs => storedBlock 0 c ++ encodeBlocks cs

/-- Modelled from the spec: zlib.compress as a standard-compliant zlib
stream - the 0x78 0xDA header (compression method 8, maximum-level flag),
stored DEFLATE blocks, and the adler32 trailer. -/
def zlibCompress (l : List Nat) : List Nat :=
  0x78 :: 0xDA :: (encodeBlocks (chunks65535 l) ++ be32 (adler32 l))

/-- Modelled from the spec: the stored-block part of a standard INFLATE,
returning the decompressed data and the unconsumed trailer. -/
def inflateBlocks : Nat → List Nat → List Nat → Option (List Nat × List Nat)
  | 0, _, _ => none
  | f + 1, bf :: l1 :: l2 :: n1 :: n2 :: rest, acc =>
    if bf / 2 % 4 = 0 then
      if n1 + 256 * n2 = 65535 - (l1 + 256 * l2) then
        if l1 + 256 * l2 ≤ rest.length then
          if bf % 2 = 1 then
            some (acc ++ rest.take (l1 + 256 * l2), rest.drop (l1 + 256 * l2))
          else
            inflateBlocks f (rest.drop (l1 + 256 * l2))
              (acc ++ rest.take (l1 + 256 * l2))
        else none
      else none
    else none
  | _ + 1, _, _ => none

/-- Modelled from the spec: a standard zlib decompressor restricted to
stored blocks - checks the two-byte header, inflates, and verifies the
adler32 trailer. -/
def zlibDecompress (l : List Nat) : Option (List Nat) :=
  match l with
  | cmf :: flg :: rest =>
    if cmf % 16 = 8 ∧ (cmf * 256 + flg) % 31 = 0 ∧ flg / 32 % 2 = 0 then
      match inflateBlocks (rest.length + 1) rest [] with
      | some (data, leftover) =>
        if leftover = be32 (adler32 data) then some data else none
      | none => none
    else none
  | _ => none

theorem chunksGo_flatten : ∀ f l, l.length ≤ f → (chunksGo f l).flatten = l := by
  intro f
  induction f with
  | zero =>
    intro l hl
    have : l = [] := List.eq_nil_of_length_eq_zero (by omega)
    subst this
    rfl
  | succ f ih =>
    intro l hl
    unfold chunksGo
    split
    · simp
    · rename_i hgt
      push_neg at hgt
      simp only [List.flatten_cons]
      rw [ih (l.drop 65535) (by simp only [List.length_drop]; omega)]
      exact List.take_append_drop 65535 l

theorem chunksGo_short : ∀ f l, l.length ≤ f → ∀ c ∈ chunksGo f l,
    c.length ≤ 65535 := by
  intro f
  induction f with
  | zero =>
    intro l hl c hc
    have : l = [] := List.eq_nil_of_length_eq_zero (by omega)
    subst this
    simp only [chunksGo, List.mem_singleton] at hc
    subst hc
    simp
  | succ f ih =>
    intro l hl c hc
    unfold chunksGo at hc
    split at hc
    · rename_i hle
      simp only [List.mem_singleton] at hc
      subst hc
      exact hle
    · rename_i hgt
      push_neg at hgt
      simp only [List.mem_cons] at hc
      rcases hc with hc | hc
      · subst hc
        simp
      · exact ih (l.drop 65535) (by simp only [List.length_drop]; omega) c hc

theorem chunksGo_sub : ∀ f l, ∀ c ∈ chunksGo f l, ∀ b ∈ c, b ∈ l := by
  intro f
  induction f with
  | zero =>
    intro l c hc b hb
    simp only [chunksGo, List.mem_singleton] at hc
    subst hc
    exact hb
  | succ f ih =>
    intro l c hc b hb
    unfold chunksGo at hc
    split at hc
    · simp only [List.mem_singleton] at hc
      subst hc
      exact hb
    · simp only [List.mem_cons] at hc
      rcases hc with hc | hc
      · subst hc
        exact List.take_subset 65535 l hb
      · exact List.drop_subset 65535 l (ih (l.drop 65535) c hc b hb)

theorem chunksGo_ne_nil : ∀ f l, chunksGo f l ≠ [] := by
  intro f l
  cases f with
  | zero => simp [chunksGo]
  | succ f =>
    unfold chunksGo
    split <;> simp

theorem storedBlock_isBytes {c : List Nat} (hb : IsBytes c)
    (hlen : c.length ≤ 65535) {flag : Nat} (hf : flag < 2) :
    IsBytes (storedBlock flag c) := by
  intro x hx
  unfold storedBlock at hx
  simp only [List.mem_cons] at hx
  rcases hx with h | h | h | h | h | h
  · omega
  · subst h; omega
  · subst h; omega
  · subst h; omega
  · subst h; omega
  · exact hb x h

theorem encodeBlocks_isBytes : ∀ cs : List (List Nat),
    (∀ c ∈ cs, IsBytes c ∧ c.length ≤ 65535) → IsBytes (encodeBlocks cs) := by
  intro cs
  induction cs with
  | nil => intro _ b hb; simp [encodeBlocks] at hb
  | cons c cs ih =>
    intro h
    cases cs with
    | nil =>
      have := h c (List.mem_singleton.mpr rfl)
      simpa [encodeBlocks] using storedBlock_isBytes this.1 this.2 (by norm_num)
    | cons c2 cs2 =>
      intro b hb
      simp only [encodeBlocks, List.mem_append] at hb
      rcases hb with hb | hb
      · have := h c (List.mem_cons_self _ _)
        exact storedBlock_isBytes this.1 this.2 (by norm_num) b hb
      · exact ih (fun x hx => h x (List.mem_cons_of_mem _ hx)) b hb

theorem zlibCompress_isBytes {l : List Nat} (hl : IsBytes l) :
    IsBytes (zlibCompress l) := by
  intro b hb
  unfold zlibCompress at hb
  simp only [List.mem_cons, List.mem_append] at hb
  rcases hb with h | h | h | h
  · omega
  · omega
  · refine encodeBlocks_isBytes _ ?_ b h
    intro c hc
    exact ⟨fun x hx => hl x (chunksGo_sub _ _ c hc x hx),
      chunksGo_short _ _ le_rfl c hc⟩
  · exact be32_isBytes _ b h

theorem encodeBlocks_length_ge : ∀ cs : List (List Nat),
    cs.length ≤ (encodeBlocks cs).length := by
  intro cs
  induction cs with
  | nil => simp [encodeBlocks]
  | cons c cs ih =>
    cases cs with
    | nil => simp [encodeBlocks, storedBlock]
    | cons c2 cs2 =>
      have h : encodeBlocks (c :: c2 :: cs2) =
          storedBlock 0 c ++ encodeBlocks (c2 :: cs2) := rfl
      rw [h]
      simp only [List.length_append, List.length_cons, storedBlock]
      simp only [List.length_cons] at ih ⊢
      omega

theorem inflate_encodeBlocks : ∀ cs : List (List Nat), cs ≠ [] →
    (∀ c ∈ cs, c.length ≤ 65535) → ∀ fuel, cs.length ≤ fuel →
    ∀ tail acc, inflateBlocks fuel (encodeBlocks cs ++ tail) acc =
      some (acc ++ cs.flatten, tail) := by
  intro cs
  induction cs with
  | nil => intro h; exact absurd rfl h
  | cons c cs ih =>
    intro _ hshort fuel hfuel tail acc
    obtain ⟨f, rfl⟩ : ∃ f, fuel = f + 1 := by
      cases fuel with
      | zero => simp at hfuel
      | succ f => exact ⟨f, rfl⟩
    have hc : c.length ≤ 65535 := hshort c (List.mem_cons_self _ _)
    have h1 : c.length % 256 + 256 * (c.length / 256) = c.length := by omega
    have h2 : (65535 - c.length) % 256 + 256 * ((65535 - c.length) / 256) =
        65535 - c.length := by omega
    cases cs with
    | nil =>
      show inflateBlocks (f + 1) (storedBlock 1 c ++ tail) acc = _
      unfold storedBlock inflateBlocks
      simp only [List.cons_append]
      rw [if_pos (by norm_num), if_pos (by omega),
        if_pos (by simp only [h1, List.length_append]; omega),
        if_pos (by norm_num), h1, List.take_left' rfl, List.drop_left' rfl]
      simp
    | cons c2 cs2 =>
      show inflateBlocks (f + 1)
        ((storedBlock 0 c ++ encodeBlocks (c2 :: cs2)) ++ tail) acc = _
      unfold storedBlock inflateBlocks
      simp only [List.cons_append, List.append_assoc]
      rw [if_pos (by norm_num), if_pos (by omega),
        if_pos (by simp only [h1, List.length_append]; omega),
        if_neg (by norm_num), h1, List.take_left' rfl, List.drop_left' rfl]
      rw [ih (by simp) (fun x hx => hshort x (List.mem_cons_of_mem _ hx)) f
        (by simp only [List.length_cons] at hfuel ⊢; omega) tail (acc ++ c)]
      simp [List.flatten_cons, List.append_assoc]

theorem zlibDecompress_cons (cmf flg : Nat) (rest : List Nat) :
    zlibDecompress (cmf :: flg :: rest) =
      if cmf % 16 = 8 ∧ (cmf * 256 + flg) % 31 = 0 ∧ flg / 32 % 2 = 0 then
        match inflateBlocks (rest.length + 1) rest [] with
        | some (data, leftover) =>
          if leftover = be32 (adler32 data) then some data else none
        | none => none
      else none := rfl

/-- The zlib model is lossless: decompressing the compression of any byte
stream gives it back. -/
theorem zlib_round_trip (l : List Nat) :
    zlibDecompress (zlibCompress l) = some l := by
  unfold zlibCompress
  rw [zlibDecompress_cons]
  rw [if_pos (by norm_num)]
  rw [inflate_encodeBlocks (chunks65535 l) (chunksGo_ne_nil _ _)
    (chunksGo_short _ _ le_rfl) _
    (le_trans (encodeBlocks_length_ge _) (by simp only [List.length_append]; omega))
    _ []]
  rw [show (chunks65535 l).flatten = l from chunksGo_flatten _ _ le_rfl]
  simp

/-- Embedding of the Python runtime errors the source can raise:
struct.error from struct.pack range checks, ValueError from tuple
unpacking and from the bytes() range check, IndexError from list index
assignment out of range. -/
inductive EncErr where
  | structError
  | valueError
  | indexError
deriving DecidableEq

/-- struct.pack with format >I: big-endian uint32, erroring when the
value does not fit. -/
def packU32 (n : Nat) : Except EncErr (List Nat) :=
  if n < 2 ^ 32 then .ok (be32 n) else .error .structError

/-- bytes(list): checks every element is in range 0..255. -/
def bytesOf (l : List Nat) : Except EncErr (List Nat) :=
  if l.all (· < 256) then .ok l else .error .valueError

/-- The fixed 8-byte PNG signature 89 50 4E 47 0D 0A 1A 0A. -/
def pngSignature : List Nat := [137, 80, 78, 71, 13, 10, 26, 10]

def typeIHDR : List Nat := [73, 72, 68, 82]

def typeIDAT : List Nat := [73, 68, 65, 84]

def typeIEND : List Nat := [73, 69, 78, 68]

/-- create_chunk from the source: length prefix, type tag, payload, and
the crc32 of (type ++ payload) masked to 32 bits, all packed big-endian. -/
def create_chunk (chunk_type data : List Nat) : Except EncErr (List Nat) := do
  let len ← packU32 data.length
  let crc ← packU32 (crc32 (chunk_type ++ data) % 2 ^ 32)
  pure (len ++ chunk_type ++ data ++ crc)

/-- The byte sequence create_chunk produces when it succeeds. -/
def mkChunkBytes (chunk_type data : List Nat) : List Nat :=
  be32 data.length ++ chunk_type ++ data ++
    be32 (crc32 (chunk_type ++ data) % 2 ^ 32)

/-- struct.pack with format >IIBBBBB as used for the IHDR payload. -/
def ihdrData (w h ct : Nat) : Except EncErr (List Nat) := do
  let wb ← packU32 w
  let hb ← packU32 h
  pure (wb ++ hb ++ [8, ct, 0, 0, 0])

/-- Inner loop of create_image_from_pixels: unpack each pixel as a
4-tuple and append its channel bytes. -/
def pixelBytes : List Pixel → Except EncErr (List Nat)
  | [] => .ok []
  | px :: rest =>
    match px with
    | [r, g, b, a] => do
      let bs ← bytesOf [r, g, b, a]
      let more ← pixelBytes rest
      pure (bs ++ more)
    | _ => .error .valueError

/-- Outer loop of create_image_from_pixels: one filter-type byte 0 per
row, then the row channel bytes. -/
def rawDataRGBA : Buffer → Except EncErr (List Nat)
  | [] => .ok []
  | row :: rest => do
    let rb ← pixelBytes row
    let more ← rawDataRGBA rest
    pure (0 :: (rb ++ more))

/-- create_image_from_pixels from the source: signature, IHDR with color
type 6, one IDAT holding the zlib-compressed scanlines, IEND. -/
def create_image_from_pixels (width height : Nat) (pixels : Buffer) :
    Except EncErr (List Nat) := do
  let ihdr ← ihdrData width height 6
  let ihdrChunk ← create_chunk typeIHDR ihdr
  let raw ← rawDataRGBA pixels
  let idatChunk ← create_chunk typeIDAT (zlibCompress raw)
  let iendChunk ← create_chunk typeIEND []
  pure (pngSignature ++ ihdrChunk ++ idatChunk ++ iendChunk)

/-- Scanline loop of create_png: height rows, each a filter byte 0
followed by bytes([r, g, b] * width). -/
def rawRowsRGB (w r g b : Nat) : Nat → Except EncErr (List Nat)
  | 0 => .ok []
  | h + 1 => do
    let rowBytes ← bytesOf (List.replicate w [r, g, b]).flatten
    let more ← rawRowsRGB w r g b h
    pure (0 :: (rowBytes ++ more))

/-- create_png from the source: solid-color RGB image, signature, IHDR
with color type 2, one IDAT, IEND. -/
def create_png (width height : Nat) (color_rgb : List Nat) :
    Except EncErr (List Nat) := do
  let ihdr ← ihdrData width height 2
  let ihdrChunk ← create_chunk typeIHDR ihdr
  match color_rgb with
  | [r, g, b] => do
    let raw ← rawRowsRGB width r g b height
    let idatChunk ← create_chunk typeIDAT (zlibCompress raw)
    let iendChunk ← create_chunk typeIEND []
    pure (pngSignature ++ ihdrChunk ++ idatChunk ++ iendChunk)
  | _ => .error .valueError

/-- Modelled from the spec: read a big-endian uint32 from the head of a
byte stream. -/
def readBe32 : List Nat → Option (Nat × List Nat)
  | a :: b :: c :: d :: rest => some (((a * 256 + b) * 256 + c) * 256 + d, rest)
  | _ => none

/-- Modelled from the spec: parse the chunk sequence of a PNG stream,
verifying each length and CRC.  The fuel argument only serves
termination; the file length is always enough. -/
def parseChunksGo : Nat → List Nat → Option (List (List Nat × List Nat))
  | _, [] => some []
  | 0, _ :: _ => none
  | f + 1, x :: l =>
    match readBe32 (x :: l) with
    | none => none
    | some (len, r1) =>
      match readBe32 ((r1.drop 4).drop len) with
      | none => none
      | some (crc, rest) =>
        if crc = crc32 (r1.take 4 ++ (r1.drop 4).take len) then
          match parseChunksGo f rest with
          | some cs => some ((r1.take 4, (r1.drop 4).take len) :: cs)
          | none => none
        else none

/-- Modelled from the spec: parse the 13-byte IHDR payload, accepting
bit depth 8, color type 2 or 6, methods 0, nonzero dimensions. -/
def parseIHDR (d : List Nat) : Option (Nat × Nat × Nat) :=
  match readBe32 d with
  | none => none
  | some (w, r1) =>
    match readBe32 r1 with
    | none => none
    | some (h, r2) =>
      match r2 with
      | [bd, ct, cm, fm, il] =>
        if bd = 8 ∧ (ct = 2 ∨ ct = 6) ∧ cm = 0 ∧ fm = 0 ∧ il = 0 ∧
            0 < w ∧ 0 < h then
          some (w, h, ct)
        else none
      | _ => none

/-- Modelled from the spec: split a defiltered scanline into w pixels of
ch channel bytes each. -/
def splitPixels (ch : Nat) : Nat → List Nat → Option (List Pixel)
  | 0, bytes => if bytes = [] then some [] else none
  | w + 1, bytes =>
    if ch ≤ bytes.length then
      match splitPixels ch w (bytes.drop ch) with
      | some ps => some (bytes.take ch :: ps)
      | none => none
    else none

/-- Modelled from the spec: defilter h scanlines (filter type 0 only,
the only type the encoder emits) of w pixels with ch channels. -/
def parseRows (ch w : Nat) : Nat → List Nat → Option Buffer
  | 0, bytes => if bytes = [] then some [] else none
  | h + 1, bytes =>
    match bytes with
    | 0 :: rest =>
      match splitPixels ch w (rest.take (w * ch)),
            parseRows ch w h (rest.drop (w * ch)) with
      | some row, some rows => some (row :: rows)
      | _, _ => none
    | _ => none

/-- Modelled from the spec: a standard-compliant PNG decoder restricted
to what the encoder emits - checks the signature, parses and
CRC-verifies the chunks, requires IHDR first and IEND last, inflates the
concatenated IDAT payloads, and defilters the scanlines.  Returns width,
height, color type and the pixel buffer. -/
def decodePNG (file : List Nat) : Option (Nat × Nat × Nat × Buffer) :=
  if file.take 8 = pngSignature then
    match parseChunksGo file.length (file.drop 8) with
    | some ((t0, d0) :: rest) =>
      if t0 = typeIHDR then
        match parseIHDR d0 with
        | some (w, h, ct) =>
          match rest.getLast? with
          | some (tl, dl) =>
            if tl = typeIEND ∧ dl = [] then
              match zlibDecompress
                  (((rest.filter (fun c => c.1 == typeIDAT)).map
                    Prod.snd).flatten) with
              | some raw =>
                match parseRows (if ct = 2 then 3 else 4) w h raw with
                | some px => some (w, h, ct, px)
                | none => none
              | none => none
            else none
          | none => none
        | none => none
      else none
    | _ => none
  else none

theorem except_bind_ok {ε α β : Type} (x : Except ε α) (f : α → Except ε β)
    (b : β) :
    (x >>= f = Except.ok b) ↔ ∃ a, x = Except.ok a ∧ f a = Except.ok b := by
  cases x <;> simp [Bind.bind, Except.bind]

theorem except_pure_ok {ε α : Type} (a b : α) :
    ((pure a : Except ε α) = Except.ok b) ↔ a = b := by
  simp [pure, Except.pure]

theorem packU32_ok {n : Nat} {l : List Nat} (h : packU32 n = .ok l) :
    n < 2 ^ 32 ∧ l = be32 n := by
  unfold packU32 at h
  split at h
  · exact ⟨by assumption, (Except.ok.injEq _ _).mp h.symm⟩
  · exact absurd h (by simp)

theorem packU32_of_lt {n : Nat} (h : n < 2 ^ 32) : packU32 n = .ok (be32 n) := by
  unfold packU32
  rw [if_pos h]

theorem create_chunk_ok {t d out : List Nat}
    (h : create_chunk t d = .ok out) :
    d.length < 2 ^ 32 ∧ out = mkChunkBytes t d := by
  unfold create_chunk at h
  rw [except_bind_ok] at h
  obtain ⟨len, hlen, h⟩ := h
  rw [except_bind_ok] at h
  obtain ⟨crc, hcrc, h⟩ := h
  rw [except_pure_ok] at h
  obtain ⟨hl1, hl2⟩ := packU32_ok hlen
  obtain ⟨hc1, hc2⟩ := packU32_ok hcrc
  subst hl2 hc2
  exact ⟨hl1, h.symm⟩

theorem create_chunk_of_lt {t d : List Nat} (h : d.length < 2 ^ 32) :
    create_chunk t d = .ok (mkChunkBytes t d) := by
  unfold create_chunk
  rw [packU32_of_lt h, packU32_of_lt (Nat.mod_lt _ (by norm_num))]
  rfl

theorem ihdrData_ok {w h ct : Nat} {l : List Nat}
    (hok : ihdrData w h ct = .ok l) :
    w < 2 ^ 32 ∧ h < 2 ^ 32 ∧ l = be32 w ++ be32 h ++ [8, ct, 0, 0, 0] := by
  unfold ihdrData at hok
  rw [except_bind_ok] at hok
  obtain ⟨wb, hwb, hok⟩ := hok
  rw [except_bind_ok] at hok
  obtain ⟨hb, hhb, hok⟩ := hok
  rw [except_pure_ok] at hok
  obtain ⟨hw1, hw2⟩ := packU32_ok hwb
  obtain ⟨hh1, hh2⟩ := packU32_ok hhb
  subst hw2 hh2
  exact ⟨hw1, hh1, hok.symm⟩

theorem bytesOf_ok {l r : List Nat} (h : bytesOf l = .ok r) :
    r = l ∧ IsBytes l := by
  unfold bytesOf at h
  split at h
  · rename_i hall
    refine ⟨((Except.ok.injEq _ _).mp h).symm, ?_⟩
    intro b hb
    simpa using List.all_eq_true.mp hall b hb
  · exact absurd h (by simp)

theorem pixelBytes_ok {row : List Pixel} {rb : List Nat}
    (h : pixelBytes row = .ok rb) :
    rb = row.flatten ∧ ∀ p ∈ row, p.length = 4 ∧ IsBytes p := by
  induction row generalizing rb with
  | nil =>
    simp only [pixelBytes, Except.ok.injEq] at h
    subst h
    simp
  | cons px rest ih =>
    unfold pixelBytes at h
    match px, h with
    | [r, g, b, a], h =>
      rw [except_bind_ok] at h
      obtain ⟨bs, hbs, h⟩ := h
      rw [except_bind_ok] at h
      obtain ⟨more, hmore, h⟩ := h
      rw [except_pure_ok] at h
      obtain ⟨hbs1, hbs2⟩ := bytesOf_ok hbs
      obtain ⟨ih1, ih2⟩ := ih hmore
      subst hbs1 ih1 h
      constructor
      · simp
      · intro p hp
        rcases List.mem_cons.mp hp with hp | hp
        · subst hp
          exact ⟨rfl, hbs2⟩
        · exact ih2 p hp

theorem rawDataRGBA_ok {pixels : Buffer} {raw : List Nat}
    (h : rawDataRGBA pixels = .ok raw) :
    raw = (pixels.map (fun row => 0 :: row.flatten)).flatten ∧
      IsBytes raw ∧ ∀ row ∈ pixels, ∀ p ∈ row, p.length = 4 ∧ IsBytes p := by
  induction pixels generalizing raw with
  | nil =>
    simp only [rawDataRGBA, Except.ok.injEq] at h
    subst h
    exact ⟨rfl, by intro b hb; simp at hb, by simp⟩
  | cons row rest ih =>
    unfold rawDataRGBA at h
    rw [except_bind_ok] at h
    obtain ⟨rb, hrb, h⟩ := h
    rw [except_bind_ok] at h
    obtain ⟨more, hmore, h⟩ := h
    rw [except_pure_ok] at h
    obtain ⟨hrb1, hrb2⟩ := pixelBytes_ok hrb
    obtain ⟨ih1, ih2, ih3⟩ := ih hmore
    subst hrb1 ih1 h
    refine ⟨by simp, ?_, ?_⟩
    · intro b hb
      simp only [List.mem_cons, List.mem_append] at hb
      rcases hb with hb | hb | hb
      · omega
      · obtain ⟨p, hp, hbp⟩ := List.mem_flatten.mp hb
        exact (hrb2 p hp).2 b hbp
      · exact ih2 b hb
    · intro r hr p hp
      rcases List.mem_cons.mp hr with hr | hr
      · subst hr
        exact hrb2 p hp
      · exact ih3 r hr p hp

theorem rawRowsRGB_ok {w r g b hgt : Nat} {raw : List Nat}
    (h : rawRowsRGB w r g b hgt = .ok raw) :
    raw = (List.replicate hgt (0 :: (List.replicate w [r, g, b]).flatten)).flatten ∧
      IsBytes raw ∧
      (0 < hgt → IsBytes (List.replicate w [r, g, b]).flatten) := by
  induction hgt generalizing raw with
  | zero =>
    simp only [rawRowsRGB, Except.ok.injEq] at h
    subst h
    exact ⟨rfl, by intro b hb; simp at hb, by omega⟩
  | succ n ih =>
    unfold rawRowsRGB at h
    rw [except_bind_ok] at h
    obtain ⟨rowBytes, hrow, h⟩ := h
    rw [except_bind_ok] at h
    obtain ⟨more, hmore, h⟩ := h
    rw [except_pure_ok] at h
    obtain ⟨hr1, hr2⟩ := bytesOf_ok hrow
    obtain ⟨ih1, ih2, _⟩ := ih hmore
    subst hr1 ih1 h
    refine ⟨by simp [List.replicate_succ], ?_, fun _ => hr2⟩
    intro x hx
    simp only [List.mem_cons, List.mem_append] at hx
    rcases hx with hx | hx | hx
    · omega
    · exact hr2 x hx
    · exact ih2 x hx

theorem readBe32_be32 {n : Nat} (rest : List Nat) (h : n < 2 ^ 32) :
    readBe32 (be32 n ++ rest) = some (n, rest) := by
  simp only [be32, List.cons_append, List.nil_append, readBe32]
  congr 1
  rw [Prod.mk.injEq]
  exact ⟨by omega, rfl⟩

theorem parseChunksGo_nil (f : Nat) : parseChunksGo f [] = some [] := by
  cases f <;> rfl

theorem readBe32_cons (a b c d : Nat) (rest : List Nat) :
    readBe32 (a :: b :: c :: d :: rest) =
      some (((a * 256 + b) * 256 + c) * 256 + d, rest) := rfl

theorem parseChunksGo_cons (f x : Nat) (l : List Nat) :
    parseChunksGo (f + 1) (x :: l) =
      match readBe32 (x :: l) with
      | none => none
      | some (len, r1) =>
        match readBe32 ((r1.drop 4).drop len) with
        | none => none
        | some (crc, rest) =>
          if crc = crc32 (r1.take 4 ++ (r1.drop 4).take len) then
            match parseChunksGo f rest with
            | some cs => some ((r1.take 4, (r1.drop 4).take len) :: cs)
            | none => none
          else none := rfl

theorem parse_mkChunk (f : Nat) (t d rest : List Nat) (ht4 : t.length = 4)
    (htb : IsBytes t) (hdb : IsBytes d) (hlen : d.length < 2 ^ 32) :
    parseChunksGo (f + 1) (mkChunkBytes t d ++ rest) =
      (parseChunksGo f rest).map (fun cs => (t, d) :: cs) := by
  have hcrc : crc32 (t ++ d) % 2 ^ 32 = crc32 (t ++ d) :=
    Nat.mod_eq_of_lt (crc32_lt (by
      intro x hx
      rcases List.mem_append.mp hx with hx | hx
      · exact htb x hx
      · exact hdb x hx))
  have hshape : mkChunkBytes t d ++ rest =
      d.length / 2 ^ 24 % 256 :: d.length / 2 ^ 16 % 256 ::
      d.length / 2 ^ 8 % 256 :: d.length % 256 ::
      (t ++ (d ++ (be32 (crc32 (t ++ d) % 2 ^ 32) ++ rest))) := by
    simp [mkChunkBytes, be32, List.append_assoc]
  have hv : ((d.length / 2 ^ 24 % 256 * 256 + d.length / 2 ^ 16 % 256) * 256 +
      d.length / 2 ^ 8 % 256) * 256 + d.length % 256 = d.length := by
    omega
  have hd4 : (t ++ (d ++ (be32 (crc32 (t ++ d) % 2 ^ 32) ++ rest))).drop 4 =
      d ++ (be32 (crc32 (t ++ d) % 2 ^ 32) ++ rest) :=
    List.drop_left' ht4
  have ht4' : (t ++ (d ++ (be32 (crc32 (t ++ d) % 2 ^ 32) ++ rest))).take 4 = t :=
    List.take_left' ht4
  rw [hshape, parseChunksGo_cons, readBe32_cons]
  dsimp only
  rw [hv, hd4, ht4', List.drop_left' rfl, List.take_left' rfl]
  rw [readBe32_be32 rest (Nat.mod_lt _ (by norm_num))]
  dsimp only
  rw [hcrc, if_pos rfl]
  cases h : parseChunksGo f rest <;> simp

theorem flatten_length_const {l : List (List Nat)} {c : Nat}
    (h : ∀ p ∈ l, p.length = c) : l.flatten.length = c * l.length := by
  induction l with
  | nil => simp
  | cons p t ih =>
    simp only [List.flatten_cons, List.length_append, List.length_cons]
    rw [h p (List.mem_cons_self _ _),
      ih (fun q hq => h q (List.mem_cons_of_mem _ hq))]
    ring

theorem splitPixels_flatten {ch : Nat} (row : List Pixel)
    (h : ∀ p ∈ row, p.length = ch) :
    splitPixels ch row.length row.flatten = some row := by
  induction row with
  | nil => rfl
  | cons p rest ih =>
    have hp : p.length = ch := h p (List.mem_cons_self _ _)
    show splitPixels ch (rest.length + 1) (p ++ rest.flatten) = _
    unfold splitPixels
    rw [if_pos (by simp only [List.length_append]; omega)]
    rw [List.drop_left' hp, List.take_left' hp]
    rw [ih (fun q hq => h q (List.mem_cons_of_mem _ hq))]

theorem parseRows_succ_cons0 (ch w hh : Nat) (rest : List Nat) :
    parseRows ch w (hh + 1) (0 :: rest) =
      match splitPixels ch w (rest.take (w * ch)),
            parseRows ch w hh (rest.drop (w * ch)) with
      | some row, some rows => some (row :: rows)
      | _, _ => none := rfl

theorem parseRows_encode (ch w : Nat) (px : Buffer)
    (hrows : ∀ row ∈ px, row.length = w)
    (harr : ∀ row ∈ px, ∀ p ∈ row, p.length = ch) :
    parseRows ch w px.length
      ((px.map (fun row => 0 :: row.flatten)).flatten) = some px := by
  induction px with
  | nil => rfl
  | cons row rest ih =>
    have hrw : row.length = w := hrows row (List.mem_cons_self _ _)
    have hfl : row.flatten.length = w * ch := by
      rw [flatten_length_const (harr row (List.mem_cons_self _ _)), hrw]
      ring
    show parseRows ch w (rest.length + 1)
      (0 :: (row.flatten ++ (rest.map (fun r => 0 :: r.flatten)).flatten)) = _
    rw [parseRows_succ_cons0, List.take_left' hfl, List.drop_left' hfl]
    have hsp : splitPixels ch w row.flatten = some row := by
      rw [← hrw]
      exact splitPixels_flatten row (harr row (List.mem_cons_self _ _))
    rw [hsp, ih (fun r hr => hrows r (List.mem_cons_of_mem _ hr))
      (fun r hr => harr r (List.mem_cons_of_mem _ hr))]

theorem parseIHDR_encode {w h ct : Nat} (hw32 : w < 2 ^ 32)
    (hh32 : h < 2 ^ 32) (hw : 0 < w) (hh : 0 < h) (hct : ct = 2 ∨ ct = 6) :
    parseIHDR (be32 w ++ be32 h ++ [8, ct, 0, 0, 0]) = some (w, h, ct) := by
  unfold parseIHDR
  rw [List.append_assoc, readBe32_be32 _ hw32]
  dsimp only
  rw [readBe32_be32 _ hh32]
  dsimp only
  rw [if_pos ⟨rfl, hct, rfl, rfl, rfl, hw, hh⟩]

theorem cifp_ok_struct {w h : Nat} {pixels : Buffer} {out : List Nat}
    (hok : create_image_from_pixels w h pixels = .ok out) :
    w < 2 ^ 32 ∧ h < 2 ^ 32 ∧ ∃ raw,
      rawDataRGBA pixels = .ok raw ∧ IsBytes raw ∧
      raw = (pixels.map (fun row => 0 :: row.flatten)).flatten ∧
      (∀ row ∈ pixels, ∀ p ∈ row, p.length = 4 ∧ IsBytes p) ∧
      (zlibCompress raw).length < 2 ^ 32 ∧
      out = pngSignature ++
        mkChunkBytes typeIHDR (be32 w ++ be32 h ++ [8, 6, 0, 0, 0]) ++
        mkChunkBytes typeIDAT (zlibCompress raw) ++ mkChunkBytes typeIEND [] := by
  unfold create_image_from_pixels at hok
  rw [except_bind_ok] at hok
  obtain ⟨ihdr, hihdr, hok⟩ := hok
  rw [except_bind_ok] at hok
  obtain ⟨ihdrChunk, hihdrC, hok⟩ := hok
  rw [except_bind_ok] at hok
  obtain ⟨raw, hraw, hok⟩ := hok
  rw [except_bind_ok] at hok
  obtain ⟨idatChunk, hidatC, hok⟩ := hok
  rw [except_bind_ok] at hok
  obtain ⟨iendChunk, hiendC, hok⟩ := hok
  rw [except_pure_ok] at hok
  obtain ⟨hw32, hh32, hihdr_eq⟩ := ihdrData_ok hihdr
  obtain ⟨hraw1, hraw2, hraw3⟩ := rawDataRGBA_ok hraw
  obtain ⟨_, hihdrC_eq⟩ := create_chunk_ok hihdrC
  obtain ⟨hclen, hidatC_eq⟩ := create_chunk_ok hidatC
  obtain ⟨_, hiendC_eq⟩ := create_chunk_ok hiendC
  subst hihdr_eq hihdrC_eq hidatC_eq hiendC_eq
  exact ⟨hw32, hh32, raw, hraw, hraw2, hraw1, hraw3, hclen, hok.symm⟩

theorem cpng_ok_struct {w h : Nat} {rgb : List Nat} {out : List Nat}
    (hok : create_png w h rgb = .ok out) :
    w < 2 ^ 32 ∧ h < 2 ^ 32 ∧ ∃ r g b raw, rgb = [r, g, b] ∧
      rawRowsRGB w r g b h = .ok raw ∧ IsBytes raw ∧
      raw = (List.replicate h
        (0 :: (List.replicate w [r, g, b]).flatten)).flatten ∧
      (0 < h → IsBytes (List.replicate w [r, g, b]).flatten) ∧
      (zlibCompress raw).length < 2 ^ 32 ∧
      out = pngSignature ++
        mkChunkBytes typeIHDR (be32 w ++ be32 h ++ [8, 2, 0, 0, 0]) ++
        mkChunkBytes typeIDAT (zlibCompress raw) ++ mkChunkBytes typeIEND [] := by
  unfold create_png at hok
  rw [except_bind_ok] at hok
  obtain ⟨ihdr, hihdr, hok⟩ := hok
  rw [except_bind_ok] at hok
  obtain ⟨ihdrChunk, hihdrC, hok⟩ := hok
  match rgb, hok with
  | [], hok => exact absurd hok (by simp)
  | [_], hok => exact absurd hok (by simp)
  | [_, _], hok => exact absurd hok (by simp)
  | _ :: _ :: _ :: _ :: _, hok => exact absurd hok (by simp)
  | [r, g, b], hok =>
    rw [except_bind_ok] at hok
    obtain ⟨raw, hraw, hok⟩ := hok
    rw [except_bind_ok] at hok
    obtain ⟨idatChunk, hidatC, hok⟩ := hok
    rw [except_bind_ok] at hok
    obtain ⟨iendChunk, hiendC, hok⟩ := hok
    rw [except_pure_ok] at hok
    obtain ⟨hw32, hh32, hihdr_eq⟩ := ihdrData_ok hihdr
    obtain ⟨hraw1, hraw2, hraw3⟩ := rawRowsRGB_ok hraw
    obtain ⟨_, hihdrC_eq⟩ := create_chunk_ok hihdrC
    obtain ⟨hclen, hidatC_eq⟩ := create_chunk_ok hidatC
    obtain ⟨_, hiendC_eq⟩ := create_chunk_ok hiendC
    subst hihdr_eq hihdrC_eq hidatC_eq hiendC_eq
    exact ⟨hw32, hh32, r, g, b, raw, rfl, hraw, hraw2, hraw1, hraw3, hclen,
      hok.symm⟩

theorem parse_three_chunks {d1 : List Nat} {comp : List Nat} {f : Nat}
    (hd1b : IsBytes d1) (hd1len : d1.length < 2 ^ 32)
    (hcompb : IsBytes comp) (hcomplen : comp.length < 2 ^ 32) :
    parseChunksGo (f + 2 + 1)
      (mkChunkBytes typeIHDR d1 ++
        (mkChunkBytes typeIDAT comp ++ (mkChunkBytes typeIEND [] ++ []))) =
      some [(typeIHDR, d1), (typeIDAT, comp), (typeIEND, [])] := by
  rw [parse_mkChunk (f + 2) typeIHDR d1 _ rfl (by decide) hd1b hd1len]
  rw [show f + 2 = f + 1 + 1 from rfl]
  rw [parse_mkChunk (f + 1) typeIDAT comp _ rfl (by decide) hcompb hcomplen]
  rw [parse_mkChunk f typeIEND [] [] rfl (by decide) (by intro b hb; simp at hb)
    (by simp)]
  rw [parseChunksGo_nil]
  rfl

theorem decode_of_structure {w h ct ch : Nat} {raw : List Nat} {px : Buffer}
    (hw32 : w < 2 ^ 32) (hh32 : h < 2 ^ 32) (hw : 0 < w) (hh : 0 < h)
    (hct : ct = 2 ∨ ct = 6) (hraw : IsBytes raw)
    (hch : ch = if ct = 2 then 3 else 4)
    (hrows : parseRows ch w h raw = some px)
    (hclen : (zlibCompress raw).length < 2 ^ 32) :
    decodePNG (pngSignature ++
      mkChunkBytes typeIHDR (be32 w ++ be32 h ++ [8, ct, 0, 0, 0]) ++
      mkChunkBytes typeIDAT (zlibCompress raw) ++ mkChunkBytes typeIEND []) =
      some (w, h, ct, px) := by
  have hctlt : ct < 256 := by rcases hct with h | h <;> omega
  set dI := be32 w ++ be32 h ++ [8, ct, 0, 0, 0] with hdI
  set comp := zlibCompress raw with hcomp
  set F := pngSignature ++ mkChunkBytes typeIHDR dI ++
    mkChunkBytes typeIDAT comp ++ mkChunkBytes typeIEND [] with hF0
  have hdIb : IsBytes dI := by
    intro b hb
    rw [hdI] at hb
    simp only [List.append_assoc, List.mem_append, List.mem_cons,
      List.not_mem_nil, or_false] at hb
    rcases hb with hb | hb | hb | hb | hb | hb | hb
    · exact be32_isBytes w b hb
    · exact be32_isBytes h b hb
    · omega
    · omega
    · omega
    · omega
    · omega
  have hdIlen : dI.length < 2 ^ 32 := by
    rw [hdI]
    simp [be32]
  have hcompb : IsBytes comp := zlibCompress_isBytes hraw
  have hF : F = pngSignature ++ (mkChunkBytes typeIHDR dI ++
      (mkChunkBytes typeIDAT comp ++ (mkChunkBytes typeIEND [] ++ []))) := by
    rw [hF0]
    simp [List.append_assoc]
  have hsig : F.take 8 = pngSignature := by
    rw [hF]
    exact List.take_left' rfl
  have hdrop : F.drop 8 = mkChunkBytes typeIHDR dI ++
      (mkChunkBytes typeIDAT comp ++ (mkChunkBytes typeIEND [] ++ [])) := by
    rw [hF]
    exact List.drop_left' rfl
  obtain ⟨f, hf⟩ : ∃ f, F.length = f + 2 + 1 := by
    refine ⟨F.length - 3, ?_⟩
    have : 8 ≤ F.length := by
      rw [hF]
      simp [pngSignature]
    omega
  have hparse : parseChunksGo F.length (F.drop 8) =
      some [(typeIHDR, dI), (typeIDAT, comp), (typeIEND, [])] := by
    rw [hdrop, hf]
    exact parse_three_chunks hdIb hdIlen hcompb hclen
  unfold decodePNG
  rw [hsig, if_pos rfl, hparse]
  dsimp only
  rw [if_pos rfl]
  rw [hdI, parseIHDR_encode hw32 hh32 hw hh hct]
  dsimp only
  have hlast : [(typeIDAT, comp), (typeIEND, ([] : List Nat))].getLast? =
      some (typeIEND, []) := rfl
  rw [hlast]
  dsimp only
  rw [if_pos ⟨rfl, rfl⟩]
  have hfil : ((([(typeIDAT, comp), (typeIEND, ([] : List Nat))].filter
      (fun c => c.1 == typeIDAT)).map Prod.snd).flatten) = comp ++ [] := rfl
  rw [hfil, List.append_nil, hcomp, zlib_round_trip raw]
  dsimp only
  rw [← hch, hrows]

/-- Round trip for create_image_from_pixels: whenever the buffer really
is height rows of width RGBA pixels and the encoder succeeds, the
decoder recovers exactly the input pixel buffer. -/
theorem roundTrip_rgba {w h : Nat} {pixels : Buffer} {out : List Nat}
    (hw : 0 < w) (hh : 0 < h) (hlen : pixels.length = h)
    (hrows : ∀ row ∈ pixels, row.length = w)
    (hok : create_image_from_pixels w h pixels = .ok out) :
    decodePNG out = some (w, h, 6, pixels) := by
  obtain ⟨hw32, hh32, raw, hraw, hrawB, hrawEq, harr, hclen, hout⟩ :=
    cifp_ok_struct hok
  have hparse : parseRows 4 w h raw = some pixels := by
    rw [hrawEq, ← hlen]
    exact parseRows_encode 4 w pixels hrows (fun r hr p hp => (harr r hr p hp).1)
  rw [hout]
  exact decode_of_structure hw32 hh32 hw hh (Or.inr rfl) hrawB
    (by norm_num) hparse hclen

/-- Round trip for create_png: for positive dimensions, a successful
encode of a solid color decodes to the solid pixel buffer. -/
theorem roundTrip_rgb {w h : Nat} {rgb out : List Nat}
    (hw : 0 < w) (hh : 0 < h) (hok : create_png w h rgb = .ok out) :
    ∃ r g b, rgb = [r, g, b] ∧
      decodePNG out = some (w, h, 2,
        List.replicate h (List.replicate w [r, g, b])) := by
  obtain ⟨hw32, hh32, r, g, b, raw, hrgb, hraw, hrawB, hrawEq, _, hclen, hout⟩ :=
    cpng_ok_struct hok
  refine ⟨r, g, b, hrgb, ?_⟩
  have hparse : parseRows 3 w h raw =
      some (List.replicate h (List.replicate w [r, g, b])) := by
    rw [hrawEq]
    have hmap : (List.replicate h (List.replicate w [r, g, b])).map
        (fun row => 0 :: row.flatten) =
        List.replicate h (0 :: (List.replicate w [r, g, b]).flatten) := by
      rw [List.map_replicate]
    have hmain := parseRows_encode 3 w
      (List.replicate h (List.replicate w [r, g, b]))
      (fun row hrow => by
        rw [List.eq_of_mem_replicate hrow]
        simp)
      (fun row hrow p hp => by
        rw [List.eq_of_mem_replicate hrow] at hp
        rw [List.eq_of_mem_replicate hp]
        rfl)
    rw [List.length_replicate, hmap] at hmain
    exact hmain
  rw [hout]
  exact decode_of_structure hw32 hh32 hw hh (Or.inl rfl) hrawB
    (by norm_num) hparse hclen

/-- draw_sprite from the source: one output row per pattern line, one
pixel per character, looked up in the colors dictionary with fully
transparent fallback. -/
def draw_sprite (pattern : List (List Char)) (colors : Char → Option Pixel) :
    Buffer :=
  pattern.map (fun line => line.map (fun c =>
    match colors c with
    | some p => p
    | none => [0, 0, 0, 0]))

/-- Read a pixel of a grid, none when out of bounds. -/
def getPixel (g : Buffer) (y x : Nat) : Option Pixel :=
  (g[y]?).bind (fun row => row[x]?)

/-- Embedding of the assignment sheet_pixels[y][x] = p: Python raises
IndexError when an index is out of range, modelled as none. -/
def setPix (g : Buffer) (y x : Nat) (p : Pixel) : Option Buffer :=
  match g[y]? with
  | some row => if x < row.length then some (g.set y (row.set x p)) else none
  | none => none

/-- The frame-placement loops of create_spritesheet: for y in
range(min(len(frame), frame_height)), for x in
range(min(len(frame[y]), frame_width)), write frame[y][x] at
(start_y + y, start_x + x). -/
def placeFrame (g : Buffer) (sy sx fw fh : Nat) (frame : Buffer) :
    Option Buffer :=
  (List.range (min frame.length fh)).foldlM (fun acc y =>
    (List.range (min (frame.getD y []).length fw)).foldlM
      (fun acc2 x => setPix acc2 (sy + y) (sx + x)
        ((frame.getD y []).getD x [])) acc) g

/-- The sheet_pixels construction of create_spritesheet: a
rows-by-6-columns grid of frame cells initialized to transparent
pixels, frames placed row-major at (i div 6, i mod 6). -/
def createSpritesheetPixels (frames : List Buffer) (fw fh : Nat) :
    Option Buffer :=
  frames.enum.foldlM (fun g p =>
      placeFrame g (p.1 / 6 * fh) (p.1 % 6 * fw) fw fh p.2)
    (List.replicate ((frames.length + 6 - 1) / 6 * fh)
      (List.replicate (6 * fw) [0, 0, 0, 0]))

/-- create_spritesheet from the source: build the sheet grid then encode
it with create_image_from_pixels. -/
def create_spritesheet (frames : List Buffer) (frame_width frame_height : Nat) :
    Except EncErr (List Nat) :=
  match createSpritesheetPixels frames frame_width frame_height with
  | some sheet => create_image_from_pixels (6 * frame_width)
      ((frames.length + 6 - 1) / 6 * frame_height) sheet
  | none => .error .indexError

/-- Every row of the grid has length W. -/
abbrev RowsOk (g : Buffer) (W : Nat) : Prop :=
  ∀ (j : Nat) (r : Row), g[j]? = some r → r.length = W

theorem setPix_spec {g : Buffer} {W y x : Nat} (p : Pixel)
    (hrows : RowsOk g W) (hy : y < g.length) (hx : x < W) :
    ∃ g', setPix g y x p = some g' ∧ g'.length = g.length ∧ RowsOk g' W ∧
      ∀ y' x', ¬(y' = y ∧ x' = x) → getPixel g' y' x' = getPixel g y' x' := by
  have hyy : g[y]? = some g[y] := List.getElem?_eq_getElem hy
  have hrl : g[y].length = W := hrows y _ hyy
  refine ⟨g.set y (g[y].set x p), ?_, by simp, ?_, ?_⟩
  · unfold setPix
    rw [hyy]
    dsimp only
    rw [if_pos (by omega)]
  · intro j r hj
    by_cases hjy : j = y
    · subst hjy
      rw [List.getElem?_set_self hy] at hj
      cases hj
      simp only [List.length_set]
      exact hrl
    · rw [List.getElem?_set_ne (fun hh => hjy hh.symm)] at hj
      exact hrows j r hj
  · intro y' x' hne
    unfold getPixel
    by_cases hyy' : y' = y
    · subst hyy'
      have hxx : x' ≠ x := fun hc => hne ⟨rfl, hc⟩
      rw [List.getElem?_set_self hy, hyy]
      dsimp only [Option.bind]
      rw [List.getElem?_set_ne (fun hh => hxx hh.symm)]
    · rw [List.getElem?_set_ne (fun hh => hyy' hh.symm)]

theorem placeRow_spec (W sy0 sx : Nat) (vals : Nat → Pixel) :
    ∀ (n : Nat) (g : Buffer), RowsOk g W → sy0 < g.length → sx + n ≤ W →
    ∃ g', (List.range n).foldlM
        (fun acc x => setPix acc sy0 (sx + x) (vals x)) g = some g' ∧
      g'.length = g.length ∧ RowsOk g' W ∧
      ∀ y x, (y ≠ sy0 ∨ x < sx ∨ sx + n ≤ x) →
        getPixel g' y x = getPixel g y x := by
  intro n
  induction n with
  | zero =>
    intro g hrows hy hx
    exact ⟨g, rfl, rfl, hrows, fun y x _ => rfl⟩
  | succ n ih =>
    intro g hrows hy hx
    obtain ⟨g1, hg1, hlen1, hrows1, hun1⟩ := ih g hrows hy (by omega)
    obtain ⟨g2, hg2, hlen2, hrows2, hun2⟩ :=
      setPix_spec (g := g1) (W := W) (y := sy0) (x := sx + n) (vals n) hrows1
        (by omega) (by omega)
    refine ⟨g2, ?_, by omega, hrows2, ?_⟩
    · rw [List.range_succ, List.foldlM_append, hg1]
      dsimp only [Bind.bind, Option.bind]
      simp only [List.foldlM_cons, List.foldlM_nil]
      rw [hg2]
      rfl
    · intro y x hcond
      refine (hun2 y x ?_).trans (hun1 y x ?_)
      · rintro ⟨rfl, rfl⟩
        rcases hcond with hc | hc | hc <;> omega
      · rcases hcond with hc | hc | hc
        · exact Or.inl hc
        · exact Or.inr (Or.inl hc)
        · exact Or.inr (Or.inr (by omega))

theorem placeFrameGo_spec (W sx fw : Nat) (_fh : Nat) (frame : Buffer) (sy : Nat) :
    ∀ (m : Nat) (g : Buffer), RowsOk g W → sy + m ≤ g.length → sx + fw ≤ W →
    ∃ g', (List.range m).foldlM (fun acc y =>
        (List.range (min (frame.getD y []).length fw)).foldlM
          (fun acc2 x => setPix acc2 (sy + y) (sx + x)
            ((frame.getD y []).getD x [])) acc) g = some g' ∧
      g'.length = g.length ∧ RowsOk g' W ∧
      ∀ y x, (∀ y' < m, ∀ x' < min (frame.getD y' []).length fw,
          ¬(y = sy + y' ∧ x = sx + x')) →
        getPixel g' y x = getPixel g y x := by
  intro m
  induction m with
  | zero =>
    intro g hrows hy hx
    exact ⟨g, rfl, rfl, hrows, fun y x _ => rfl⟩
  | succ m ih =>
    intro g hrows hy hx
    obtain ⟨g1, hg1, hlen1, hrows1, hun1⟩ := ih g hrows (by omega) hx
    have hminle : min (frame.getD m []).length fw ≤ fw :=
      Nat.min_le_right _ _
    obtain ⟨g2, hg2, hlen2, hrows2, hun2⟩ :=
      placeRow_spec W (sy + m) sx (fun x => (frame.getD m []).getD x [])
        (min (frame.getD m []).length fw) g1 hrows1 (by omega) (by omega)
    refine ⟨g2, ?_, by omega, hrows2, ?_⟩
    · rw [List.range_succ, List.foldlM_append, hg1]
      dsimp only [Bind.bind, Option.bind]
      simp only [List.foldlM_cons, List.foldlM_nil]
      rw [hg2]
      rfl
    · intro y x hcond
      refine (hun2 y x ?_).trans (hun1 y x ?_)
      · by_cases hym : y = sy + m
        · subst hym
          right
          by_cases hxl : x < sx
          · exact Or.inl hxl
          · right
            by_contra hcon
            push_neg at hcon
            exact hcond m (by omega) (x - sx) (by omega) ⟨rfl, by omega⟩
        · exact Or.inl hym
      · intro y' hy' x' hx'
        exact hcond y' (by omega) x' hx'

theorem placeFrame_spec (W fw fh : Nat) (frame : Buffer) (g : Buffer)
    (sy sx : Nat) (hrows : RowsOk g W) (hy : sy + fh ≤ g.length)
    (hx : sx + fw ≤ W) :
    ∃ g', placeFrame g sy sx fw fh frame = some g' ∧
      g'.length = g.length ∧ RowsOk g' W ∧
      ∀ y x, (∀ y' < min frame.length fh,
          ∀ x' < min (frame.getD y' []).length fw,
          ¬(y = sy + y' ∧ x = sx + x')) →
        getPixel g' y x = getPixel g y x := by
  have hm : sy + min frame.length fh ≤ g.length := by
    have := Nat.min_le_right frame.length fh
    omega
  exact placeFrameGo_spec W sx fw fh frame sy (min frame.length fh) g
    hrows hm hx

theorem foldFrames_spec (W fw fh : Nat) :
    ∀ (l : List (Nat × Buffer)) (g : Buffer), RowsOk g W →
    (∀ p ∈ l, p.1 / 6 * fh + fh ≤ g.length ∧ p.1 % 6 * fw + fw ≤ W) →
    ∃ g', l.foldlM (fun acc p =>
        placeFrame acc (p.1 / 6 * fh) (p.1 % 6 * fw) fw fh p.2) g = some g' ∧
      g'.length = g.length ∧ RowsOk g' W ∧
      ∀ y x, (∀ p ∈ l, ∀ y' < min p.2.length fh,
          ∀ x' < min (p.2.getD y' []).length fw,
          ¬(y = p.1 / 6 * fh + y' ∧ x = p.1 % 6 * fw + x')) →
        getPixel g' y x = getPixel g y x := by
  intro l
  induction l with
  | nil =>
    intro g hrows hb
    exact ⟨g, rfl, rfl, hrows, fun y x _ => rfl⟩
  | cons p t ih =>
    intro g hrows hb
    obtain ⟨hb1, hb2⟩ := hb p (List.mem_cons_self _ _)
    obtain ⟨g1, hg1, hlen1, hrows1, hun1⟩ :=
      placeFrame_spec W fw fh p.2 g (p.1 / 6 * fh)
        (p.1 % 6 * fw) hrows hb1 hb2
    obtain ⟨g2, hg2, hlen2, hrows2, hun2⟩ := ih g1 hrows1 (fun q hq => by
      obtain ⟨h1, h2⟩ := hb q (List.mem_cons_of_mem _ hq)
      omega)
    refine ⟨g2, ?_, by omega, hrows2, ?_⟩
    · simp only [List.foldlM_cons]
      rw [hg1]
      dsimp only [Bind.bind, Option.bind]
      exact hg2
    · intro y x hcond
      refine (hun2 y x ?_).trans (hun1 y x ?_)
      · intro q hq
        exact hcond q (List.mem_cons_of_mem _ hq)
      · exact hcond p (List.mem_cons_self _ _)

theorem createSpritesheetPixels_spec (frames : List Buffer) (fw fh : Nat) :
    ∃ sheet, createSpritesheetPixels frames fw fh = some sheet ∧
      sheet.length = (frames.length + 6 - 1) / 6 * fh ∧
      RowsOk sheet (6 * fw) ∧
      ∀ y x, (∀ (i : Nat) (fr : Buffer), frames[i]? = some fr →
          ∀ y' < min fr.length fh, ∀ x' < min (fr.getD y' []).length fw,
          ¬(y = i / 6 * fh + y' ∧ x = i % 6 * fw + x')) →
        getPixel sheet y x =
          getPixel (List.replicate ((frames.length + 6 - 1) / 6 * fh)
            (List.replicate (6 * fw) [0, 0, 0, 0])) y x := by
  have hrows : RowsOk (List.replicate ((frames.length + 6 - 1) / 6 * fh)
      (List.replicate (6 * fw) ([0, 0, 0, 0] : Pixel))) (6 * fw) := by
    intro j r hj
    rw [List.getElem?_replicate] at hj
    split at hj
    · cases hj
      simp
    · simp at hj
  have hbounds : ∀ p ∈ frames.enum,
      p.1 / 6 * fh + fh ≤ (List.replicate ((frames.length + 6 - 1) / 6 * fh)
        (List.replicate (6 * fw) ([0, 0, 0, 0] : Pixel))).length ∧
      p.1 % 6 * fw + fw ≤ 6 * fw := by
    intro p hp
    have hi : p.1 < frames.length := by
      have h1 := List.mem_enum_iff_getElem?.mp hp
      exact (List.getElem?_eq_some_iff.mp h1).1
    constructor
    · rw [List.length_replicate]
      have hdiv : p.1 / 6 + 1 ≤ (frames.length + 6 - 1) / 6 := by omega
      calc p.1 / 6 * fh + fh = (p.1 / 6 + 1) * fh := by ring
        _ ≤ (frames.length + 6 - 1) / 6 * fh := Nat.mul_le_mul_right _ hdiv
    · have h6 : p.1 % 6 + 1 ≤ 6 := by omega
      calc p.1 % 6 * fw + fw = (p.1 % 6 + 1) * fw := by ring
        _ ≤ 6 * fw := Nat.mul_le_mul_right _ h6
  obtain ⟨sheet, hsheet, hlen2, hrows2, hun⟩ :=
    foldFrames_spec (6 * fw) fw fh frames.enum _ hrows hbounds
  refine ⟨sheet, hsheet, by simpa using hlen2, hrows2, ?_⟩
  intro y x hcond
  refine hun y x ?_
  intro p hp
  exact hcond p.1 p.2 (List.mem_enum_iff_getElem?.mp hp)

/-- The grid create_spritesheet builds always exists (the min-clamped
loops never index out of range), has rows*frame_height rows of
6*frame_width pixels, and every position not covered by a frame holds
the fully transparent pixel. -/
theorem sheet_uncovered (frames : List Buffer) {fw fh : Nat}
    (hfw : 0 < fw) (hfh : 0 < fh) :
    ∃ sheet, createSpritesheetPixels frames fw fh = some sheet ∧
      sheet.length = (frames.length + 6 - 1) / 6 * fh ∧
      RowsOk sheet (6 * fw) ∧
      ∀ y x, y < (frames.length + 6 - 1) / 6 * fh → x < 6 * fw →
        ¬(y / fh * 6 + x / fw < frames.length ∧
          y % fh < (frames.getD (y / fh * 6 + x / fw) []).length ∧
          x % fw < ((frames.getD (y / fh * 6 + x / fw) []).getD
            (y % fh) []).length) →
        getPixel sheet y x = some [0, 0, 0, 0] := by
  obtain ⟨sheet, hsheet, hlen, hrows, hun⟩ :=
    createSpritesheetPixels_spec frames fw fh
  refine ⟨sheet, hsheet, hlen, hrows, ?_⟩
  intro y x hy hx hnc
  have hcond : ∀ (i : Nat) (fr : Buffer), frames[i]? = some fr →
      ∀ y' < min fr.length fh, ∀ x' < min (fr.getD y' []).length fw,
      ¬(y = i / 6 * fh + y' ∧ x = i % 6 * fw + x') := by
    intro i fr hfr y' hy' x' hx' hcontra
    obtain ⟨hye, hxe⟩ := hcontra
    have hy'fh : y' < fh := lt_of_lt_of_le hy' (Nat.min_le_right _ _)
    have hx'fw : x' < fw := lt_of_lt_of_le hx' (Nat.min_le_right _ _)
    have hy'fr : y' < fr.length := lt_of_lt_of_le hy' (Nat.min_le_left _ _)
    have hx'fr : x' < (fr.getD y' []).length :=
      lt_of_lt_of_le hx' (Nat.min_le_left _ _)
    have hydiv : y / fh = i / 6 := by
      rw [hye, Nat.mul_comm (i / 6) fh, Nat.mul_add_div hfh,
        Nat.div_eq_of_lt hy'fh, Nat.add_zero]
    have hymod : y % fh = y' := by
      rw [hye, Nat.mul_comm (i / 6) fh, Nat.mul_add_mod]
      exact Nat.mod_eq_of_lt hy'fh
    have hxdiv : x / fw = i % 6 := by
      rw [hxe, Nat.mul_comm (i % 6) fw, Nat.mul_add_div hfw,
        Nat.div_eq_of_lt hx'fw, Nat.add_zero]
    have hxmod : x % fw = x' := by
      rw [hxe, Nat.mul_comm (i % 6) fw, Nat.mul_add_mod]
      exact Nat.mod_eq_of_lt hx'fw
    have hieq : y / fh * 6 + x / fw = i := by
      rw [hydiv, hxdiv]
      omega
    have hilt : i < frames.length := (List.getElem?_eq_some_iff.mp hfr).1
    have hgetD : frames.getD i [] = fr := by
      rw [List.getD_eq_getElem?_getD, hfr]
      rfl
    exact hnc ⟨by omega, by rw [hieq, hgetD, hymod]; exact hy'fr,
      by rw [hieq, hgetD, hymod, hxmod]; exact hx'fr⟩
  rw [hun y x hcond]
  unfold getPixel
  rw [List.getElem?_replicate_of_lt hy]
  dsimp only [Option.bind]
  rw [List.getElem?_replicate_of_lt hx]

theorem except_bind_error {ε α β : Type} (x : Except ε α) (f : α → Except ε β)
    (e : ε) :
    (x >>= f = Except.error e) ↔
      x = Except.error e ∨ ∃ a, x = Except.ok a ∧ f a = Except.error e := by
  cases x <;> simp [Bind.bind, Except.bind]

theorem except_pure_ne_error {ε α : Type} (a : α) (e : ε) :
    (pure a : Except ε α) ≠ Except.error e := by
  simp [pure, Except.pure]

theorem packU32_error {n : Nat} {e : EncErr} (h : packU32 n = .error e) :
    e = .structError := by
  unfold packU32 at h
  split at h
  · exact absurd h (by simp)
  · cases h
    rfl

theorem bytesOf_error {l : List Nat} {e : EncErr} (h : bytesOf l = .error e) :
    e = .valueError := by
  unfold bytesOf at h
  split at h
  · exact absurd h (by simp)
  · cases h
    rfl

theorem create_chunk_error {t d : List Nat} {e : EncErr}
    (h : create_chunk t d = .error e) : e = .structError := by
  unfold create_chunk at h
  rw [except_bind_error] at h
  rcases h with h | ⟨_, _, h⟩
  · exact packU32_error h
  · rw [except_bind_error] at h
    rcases h with h | ⟨_, _, h⟩
    · exact packU32_error h
    · exact absurd h (except_pure_ne_error _ _)

theorem ihdrData_error {w h ct : Nat} {e : EncErr}
    (hok : ihdrData w h ct = .error e) : e = .structError := by
  unfold ihdrData at hok
  rw [except_bind_error] at hok
  rcases hok with hok | ⟨_, _, hok⟩
  · exact packU32_error hok
  · rw [except_bind_error] at hok
    rcases hok with hok | ⟨_, _, hok⟩
    · exact packU32_error hok
    · exact absurd hok (except_pure_ne_error _ _)

theorem pixelBytes_error {row : List Pixel} {e : EncErr}
    (h : pixelBytes row = .error e) : e = .valueError := by
  induction row with
  | nil => exact absurd h (by simp [pixelBytes])
  | cons px rest ih =>
    unfold pixelBytes at h
    match px, h with
    | [], h => cases h; rfl
    | [_], h => cases h; rfl
    | [_, _], h => cases h; rfl
    | [_, _, _], h => cases h; rfl
    | _ :: _ :: _ :: _ :: _ :: _, h => cases h; rfl
    | [r, g, b, a], h =>
      rw [except_bind_error] at h
      rcases h with h | ⟨_, _, h⟩
      · exact bytesOf_error h
      · rw [except_bind_error] at h
        rcases h with h | ⟨_, _, h⟩
        · exact ih h
        · exact absurd h (except_pure_ne_error _ _)

theorem rawDataRGBA_error {pixels : Buffer} {e : EncErr}
    (h : rawDataRGBA pixels = .error e) : e = .valueError := by
  induction pixels with
  | nil => exact absurd h (by simp [rawDataRGBA])
  | cons row rest ih =>
    unfold rawDataRGBA at h
    rw [except_bind_error] at h
    rcases h with h | ⟨_, _, h⟩
    · exact pixelBytes_error h
    · rw [except_bind_error] at h
      rcases h with h | ⟨_, _, h⟩
      · exact ih h
      · exact absurd h (except_pure_ne_error _ _)

theorem rawRowsRGB_error {w r g b hgt : Nat} {e : EncErr}
    (h : rawRowsRGB w r g b hgt = .error e) : e = .valueError := by
  induction hgt with
  | zero => exact absurd h (by simp [rawRowsRGB])
  | succ n ih =>
    unfold rawRowsRGB at h
    rw [except_bind_error] at h
    rcases h with h | ⟨_, _, h⟩
    · exact bytesOf_error h
    · rw [except_bind_error] at h
      rcases h with h | ⟨_, _, h⟩
      · exact ih h
      · exact absurd h (except_pure_ne_error _ _)

theorem create_image_from_pixels_error {w h : Nat} {pixels : Buffer}
    {e : EncErr} (hok : create_image_from_pixels w h pixels = .error e) :
    e = .structError ∨ e = .valueError := by
  unfold create_image_from_pixels at hok
  rw [except_bind_error] at hok
  rcases hok with hok | ⟨_, _, hok⟩
  · exact Or.inl (ihdrData_error hok)
  · rw [except_bind_error] at hok
    rcases hok with hok | ⟨_, _, hok⟩
    · exact Or.inl (create_chunk_error hok)
    · rw [except_bind_error] at hok
      rcases hok with hok | ⟨_, _, hok⟩
      · exact Or.inr (rawDataRGBA_error hok)
      · rw [except_bind_error] at hok
        rcases hok with hok | ⟨_, _, hok⟩
        · exact Or.inl (create_chunk_error hok)
        · rw [except_bind_error] at hok
          rcases hok with hok | ⟨_, _, hok⟩
          · exact Or.inl (create_chunk_error hok)
          · exact absurd hok (except_pure_ne_error _ _)

theorem create_png_error {w h : Nat} {rgb : List Nat} {e : EncErr}
    (hok : create_png w h rgb = .error e) :
    e = .structError ∨ e = .valueError := by
  unfold create_png at hok
  rw [except_bind_error] at hok
  rcases hok with hok | ⟨_, _, hok⟩
  · exact Or.inl (ihdrData_error hok)
  · rw [except_bind_error] at hok
    rcases hok with hok | ⟨_, _, hok⟩
    · exact Or.inl (create_chunk_error hok)
    · match rgb, hok with
      | [], hok => cases hok; exact Or.inr rfl
      | [_], hok => cases hok; exact Or.inr rfl
      | [_, _], hok => cases hok; exact Or.inr rfl
      | _ :: _ :: _ :: _ :: _, hok => cases hok; exact Or.inr rfl
      | [r, g, b], hok =>
        rw [except_bind_error] at hok
        rcases hok with hok | ⟨_, _, hok⟩
        · exact Or.inr (rawRowsRGB_error hok)
        · rw [except_bind_error] at hok
          rcases hok with hok | ⟨_, _, hok⟩
          · exact Or.inl (create_chunk_error hok)
          · rw [except_bind_error] at hok
            rcases hok with hok | ⟨_, _, hok⟩
            · exact Or.inl (create_chunk_error hok)
            · exact absurd hok (except_pure_ne_error _ _)

theorem ihdr_isBytes {w h ct : Nat} (hct : ct < 256) :
    IsBytes (be32 w ++ be32 h ++ [8, ct, 0, 0, 0]) := by
  intro b hb
  simp only [List.append_assoc, List.mem_append, List.mem_cons,
    List.not_mem_nil, or_false] at hb
  rcases hb with hb | hb | hb | hb | hb | hb | hb
  · exact be32_isBytes w b hb
  · exact be32_isBytes h b hb
  · omega
  · omega
  · omega
  · omega
  · omega

theorem ihdr_length (w h ct : Nat) :
    (be32 w ++ be32 h ++ [8, ct, 0, 0, 0]).length = 13 := by
  simp [be32]

theorem parse_of_out {dI comp out : List Nat} (hdIb : IsBytes dI)
    (hdIlen : dI.length < 2 ^ 32) (hcompb : IsBytes comp)
    (hcomplen : comp.length < 2 ^ 32)
    (hout : out = pngSignature ++ mkChunkBytes typeIHDR dI ++
      mkChunkBytes typeIDAT comp ++ mkChunkBytes typeIEND []) :
    out.take 8 = pngSignature ∧
    parseChunksGo out.length (out.drop 8) =
      some [(typeIHDR, dI), (typeIDAT, comp), (typeIEND, [])] := by
  have hF : out = pngSignature ++ (mkChunkBytes typeIHDR dI ++
      (mkChunkBytes typeIDAT comp ++ (mkChunkBytes typeIEND [] ++ []))) := by
    rw [hout]
    simp [List.append_assoc]
  constructor
  · rw [hF]
    exact List.take_left' rfl
  · obtain ⟨f, hf⟩ : ∃ f, out.length = f + 2 + 1 := by
      refine ⟨out.length - 3, ?_⟩
      have : 8 ≤ out.length := by
        rw [hF]
        simp [pngSignature]
      omega
    rw [hf, show out.drop 8 = mkChunkBytes typeIHDR dI ++
      (mkChunkBytes typeIDAT comp ++ (mkChunkBytes typeIEND [] ++ [])) from
      by rw [hF]; exact List.drop_left' rfl]
    exact parse_three_chunks hdIb hdIlen hcompb hcomplen

/-- C1: for every valid input (positive dimensions, height rows of width
pixels, channel arity matching the color mode) the modelled
standard-compliant decoder recovers exactly the input pixel buffer from
the encoder output; in particular a 2x2 RGB all-red image yields a file
whose IHDR payload declares width 2, height 2, bit depth 8, color type 2,
and decodes to four (255,0,0) pixels. -/
theorem C1_round_trip :
    (∀ (w h : Nat) (pixels : Buffer) (out : List Nat), 0 < w → 0 < h →
      pixels.length = h → (∀ row ∈ pixels, row.length = w) →
      create_image_from_pixels w h pixels = .ok out →
      decodePNG out = some (w, h, 6, pixels)) ∧
    (∀ (w h : Nat) (rgb out : List Nat), 0 < w → 0 < h →
      create_png w h rgb = .ok out →
      ∃ r g b, rgb = [r, g, b] ∧
        decodePNG out = some (w, h, 2,
          List.replicate h (List.replicate w [r, g, b]))) ∧
    (∀ out : List Nat, create_png 2 2 [255, 0, 0] = .ok out →
      decodePNG out = some (2, 2, 2,
        [[[255, 0, 0], [255, 0, 0]], [[255, 0, 0], [255, 0, 0]]]) ∧
      ∃ restBytes, out = pngSignature ++
        mkChunkBytes typeIHDR (be32 2 ++ be32 2 ++ [8, 2, 0, 0, 0]) ++
        restBytes) := by
  refine ⟨fun w h pixels out hw hh hlen hrows hok =>
      roundTrip_rgba hw hh hlen hrows hok,
    fun w h rgb out hw hh hok => roundTrip_rgb hw hh hok, ?_⟩
  intro out hok
  constructor
  · obtain ⟨r, g, b, hrgb, hdec⟩ :=
      roundTrip_rgb (by norm_num) (by norm_num) hok
    obtain ⟨hr, hg, hb⟩ : 255 = r ∧ 0 = g ∧ 0 = b := by simpa using hrgb
    subst hr
    subst hg
    subst hb
    exact hdec
  · obtain ⟨-, -, r, g, b, raw, hrgb, -, -, -, -, -, hout⟩ :=
      cpng_ok_struct hok
    obtain ⟨hr, hg, hb⟩ : 255 = r ∧ 0 = g ∧ 0 = b := by simpa using hrgb
    subst hr
    subst hg
    subst hb
    refine ⟨mkChunkBytes typeIDAT (zlibCompress raw) ++
      mkChunkBytes typeIEND [], ?_⟩
    rw [hout]
    simp [List.append_assoc]

set_option maxRecDepth 1000000 in
theorem C1_round_trip_witness :
    decodePNG [137, 80, 78, 71, 13, 10, 26, 10, 0, 0, 0, 13, 73, 72, 68, 82,
      0, 0, 0, 1, 0, 0, 0, 1, 8, 6, 0, 0, 0, 31, 21, 196, 137, 0, 0, 0, 16,
      73, 68, 65, 84, 120, 218, 1, 5, 0, 250, 255, 0, 1, 2, 3, 4, 0, 25, 0,
      11, 167, 90, 81, 156, 0, 0, 0, 0, 73, 69, 78, 68, 174, 66, 96, 130] =
      some (1, 1, 6, [[[1, 2, 3, 4]]]) ∧
    (∃ r g b, ([255, 0, 0] : List Nat) = [r, g, b] ∧
      decodePNG [137, 80, 78, 71, 13, 10, 26, 10, 0, 0, 0, 13, 73, 72, 68,
        82, 0, 0, 0, 2, 0, 0, 0, 2, 8, 2, 0, 0, 0, 253, 212, 154, 115, 0, 0,
        0, 25, 73, 68, 65, 84, 120, 218, 1, 14, 0, 241, 255, 0, 255, 0, 0,
        255, 0, 0, 0, 255, 0, 0, 255, 0, 0, 31, 238, 3, 253, 20, 51, 210,
        169, 0, 0, 0, 0, 73, 69, 78, 68, 174, 66, 96, 130] =
        some (2, 2, 2, List.replicate 2 (List.replicate 2 [r, g, b]))) :=
  ⟨C1_round_trip.1 1 1 [[[1, 2, 3, 4]]] _ (by norm_num) (by norm_num) rfl
      (by decide) (by rfl),
   C1_round_trip.2.1 2 2 [255, 0, 0] _ (by norm_num) (by norm_num) (by rfl)⟩

set_option maxRecDepth 1000000 in
/-- C2 counterexample: the claim says the encoder fails with an
InvalidDimensions error when width or height is not positive and with a
MalformedBuffer error on a shape mismatch; in fact the code validates
nothing: encoding with width = height = 0, with a buffer whose shape
contradicts the declared dimensions, or an RGB fill with zero dimensions
all succeed. -/
theorem C2_no_validation_counterexample :
    (create_image_from_pixels 0 0 []).toOption.isSome = true ∧
    (create_image_from_pixels 5 7 [[[1, 2, 3, 4]]]).toOption.isSome = true ∧
    (create_png 0 0 [9, 9, 9]).toOption.isSome = true :=
  ⟨by rfl, by rfl, by rfl⟩

set_option maxRecDepth 1000000 in
/-- C2 amended: the encoder performs no validation of dimensions or
buffer shape (width or height 0 and mismatched buffers encode without
error); its only failure modes are the Python runtime errors - a
struct.error when width, height or a chunk length does not fit an
unsigned 32-bit integer, and a ValueError when a pixel tuple does not
have the declared arity or a channel value is out of byte range. -/
theorem C2_error_modes :
    (∀ (w h : Nat) (pixels : Buffer) (e : EncErr),
      create_image_from_pixels w h pixels = .error e →
      e = .structError ∨ e = .valueError) ∧
    (∀ (w h : Nat) (rgb : List Nat) (e : EncErr),
      create_png w h rgb = .error e → e = .structError ∨ e = .valueError) ∧
    (create_image_from_pixels 0 0 []).toOption.isSome = true :=
  ⟨fun _ _ _ _ h => create_image_from_pixels_error h,
   fun _ _ _ _ h => create_png_error h, by rfl⟩

set_option maxRecDepth 1000000 in
theorem C2_error_modes_witness :
    EncErr.valueError = .structError ∨ EncErr.valueError = .valueError :=
  C2_error_modes.1 1 1 [[[300, 0, 0, 0]]] .valueError (by rfl)

/-- C3: every successful encoder output is exactly the concatenation of
the 8-byte PNG signature, the IHDR chunk, the IDAT chunk and an IEND
chunk with empty payload, and in particular begins with the signature. -/
theorem C3_output_layout :
    (∀ (w h : Nat) (pixels : Buffer) (out : List Nat),
      create_image_from_pixels w h pixels = .ok out →
      out.take 8 = pngSignature ∧
      ∃ ihdrD idatD, out = pngSignature ++ mkChunkBytes typeIHDR ihdrD ++
        mkChunkBytes typeIDAT idatD ++ mkChunkBytes typeIEND []) ∧
    (∀ (w h : Nat) (rgb out : List Nat), create_png w h rgb = .ok out →
      out.take 8 = pngSignature ∧
      ∃ ihdrD idatD, out = pngSignature ++ mkChunkBytes typeIHDR ihdrD ++
        mkChunkBytes typeIDAT idatD ++ mkChunkBytes typeIEND []) := by
  constructor
  · intro w h pixels out hok
    obtain ⟨-, -, raw, -, -, -, -, -, hout⟩ := cifp_ok_struct hok
    refine ⟨?_, _, _, hout⟩
    rw [hout]
    simp only [List.append_assoc]
    exact List.take_left' rfl
  · intro w h rgb out hok
    obtain ⟨-, -, r, g, b, raw, -, -, -, -, -, -, hout⟩ := cpng_ok_struct hok
    refine ⟨?_, _, _, hout⟩
    rw [hout]
    simp only [List.append_assoc]
    exact List.take_left' rfl

set_option maxRecDepth 1000000 in
theorem C3_output_layout_witness :
    ([137, 80, 78, 71, 13, 10, 26, 10, 0, 0, 0, 13, 73, 72, 68, 82, 0, 0, 0,
      1, 0, 0, 0, 1, 8, 6, 0, 0, 0, 31, 21, 196, 137, 0, 0, 0, 16, 73, 68,
      65, 84, 120, 218, 1, 5, 0, 250, 255, 0, 1, 2, 3, 4, 0, 25, 0, 11, 167,
      90, 81, 156, 0, 0, 0, 0, 73, 69, 78, 68, 174, 66, 96, 130] :
      List Nat).take 8 = pngSignature ∧
    ∃ ihdrD idatD, ([137, 80, 78, 71, 13, 10, 26, 10, 0, 0, 0, 13, 73, 72,
      68, 82, 0, 0, 0, 1, 0, 0, 0, 1, 8, 6, 0, 0, 0, 31, 21, 196, 137, 0, 0,
      0, 16, 73, 68, 65, 84, 120, 218, 1, 5, 0, 250, 255, 0, 1, 2, 3, 4, 0,
      25, 0, 11, 167, 90, 81, 156, 0, 0, 0, 0, 73, 69, 78, 68, 174, 66, 96,
      130] : List Nat) = pngSignature ++ mkChunkBytes typeIHDR ihdrD ++
      mkChunkBytes typeIDAT idatD ++ mkChunkBytes typeIEND [] :=
  C3_output_layout.1 1 1 [[[1, 2, 3, 4]]] _ (by rfl)

/-- C4: the IHDR chunk of every successful output carries a 13-byte
payload of width and height as big-endian uint32, bit depth 8, color
type 6 for create_image_from_pixels and 2 for create_png, and zero
compression, filter and interlace methods. -/
theorem C4_ihdr_payload :
    (∀ (w h : Nat) (pixels : Buffer) (out : List Nat),
      create_image_from_pixels w h pixels = .ok out →
      ∃ cs, parseChunksGo out.length (out.drop 8) =
        some ((typeIHDR, be32 w ++ be32 h ++ [8, 6, 0, 0, 0]) :: cs) ∧
      (be32 w ++ be32 h ++ [8, 6, 0, 0, 0]).length = 13) ∧
    (∀ (w h : Nat) (rgb out : List Nat), create_png w h rgb = .ok out →
      ∃ cs, parseChunksGo out.length (out.drop 8) =
        some ((typeIHDR, be32 w ++ be32 h ++ [8, 2, 0, 0, 0]) :: cs) ∧
      (be32 w ++ be32 h ++ [8, 2, 0, 0, 0]).length = 13) := by
  constructor
  · intro w h pixels out hok
    obtain ⟨hw32, hh32, raw, -, hrawB, -, -, hclen, hout⟩ := cifp_ok_struct hok
    have hp := (parse_of_out (ihdr_isBytes (by norm_num))
      (by rw [ihdr_length]; norm_num) (zlibCompress_isBytes hrawB) hclen
      hout).2
    exact ⟨_, hp, ihdr_length w h 6⟩
  · intro w h rgb out hok
    obtain ⟨hw32, hh32, r, g, b, raw, -, -, hrawB, -, -, hclen, hout⟩ :=
      cpng_ok_struct hok
    have hp := (parse_of_out (ihdr_isBytes (by norm_num))
      (by rw [ihdr_length]; norm_num) (zlibCompress_isBytes hrawB) hclen
      hout).2
    exact ⟨_, hp, ihdr_length w h 2⟩

set_option maxRecDepth 1000000 in
theorem C4_ihdr_payload_witness :
    ∃ cs, parseChunksGo ([137, 80, 78, 71, 13, 10, 26, 10, 0, 0, 0, 13, 73,
      72, 68, 82, 0, 0, 0, 1, 0, 0, 0, 1, 8, 6, 0, 0, 0, 31, 21, 196, 137,
      0, 0, 0, 16, 73, 68, 65, 84, 120, 218, 1, 5, 0, 250, 255, 0, 1, 2, 3,
      4, 0, 25, 0, 11, 167, 90, 81, 156, 0, 0, 0, 0, 73, 69, 78, 68, 174,
      66, 96, 130] : List Nat).length
      (([137, 80, 78, 71, 13, 10, 26, 10, 0, 0, 0, 13, 73, 72, 68, 82, 0, 0,
      0, 1, 0, 0, 0, 1, 8, 6, 0, 0, 0, 31, 21, 196, 137, 0, 0, 0, 16, 73,
      68, 65, 84, 120, 218, 1, 5, 0, 250, 255, 0, 1, 2, 3, 4, 0, 25, 0, 11,
      167, 90, 81, 156, 0, 0, 0, 0, 73, 69, 78, 68, 174, 66, 96, 130] :
      List Nat).drop 8) =
      some ((typeIHDR, be32 1 ++ be32 1 ++ [8, 6, 0, 0, 0]) :: cs) ∧
    (be32 1 ++ be32 1 ++ [8, 6, 0, 0, 0]).length = 13 :=
  C4_ihdr_payload.1 1 1 [[[1, 2, 3, 4]]] _ (by rfl)

/-- C5: the raw scanline stream is one filter byte 0 per row followed by
the row channel bytes, the IDAT payload is its zlib compression, and
exactly one IDAT chunk appears among the parsed chunks. -/
theorem C5_idat_scanlines :
    (∀ (w h : Nat) (pixels : Buffer) (out : List Nat),
      create_image_from_pixels w h pixels = .ok out →
      ∃ raw, rawDataRGBA pixels = .ok raw ∧
        raw = (pixels.map (fun row => 0 :: row.flatten)).flatten ∧
        ∃ cs, parseChunksGo out.length (out.drop 8) = some cs ∧
          (cs.filter (fun c => c.1 == typeIDAT)).map Prod.snd =
            [zlibCompress raw]) ∧
    (∀ (w h : Nat) (rgb out : List Nat), create_png w h rgb = .ok out →
      ∃ r g b raw, rgb = [r, g, b] ∧ rawRowsRGB w r g b h = .ok raw ∧
        raw = (List.replicate h
          (0 :: (List.replicate w [r, g, b]).flatten)).flatten ∧
        ∃ cs, parseChunksGo out.length (out.drop 8) = some cs ∧
          (cs.filter (fun c => c.1 == typeIDAT)).map Prod.snd =
            [zlibCompress raw]) := by
  constructor
  · intro w h pixels out hok
    obtain ⟨hw32, hh32, raw, hraw, hrawB, hrawEq, -, hclen, hout⟩ :=
      cifp_ok_struct hok
    have hp := (parse_of_out (ihdr_isBytes (by norm_num))
      (by rw [ihdr_length]; norm_num) (zlibCompress_isBytes hrawB) hclen
      hout).2
    exact ⟨raw, hraw, hrawEq, _, hp, rfl⟩
  · intro w h rgb out hok
    obtain ⟨hw32, hh32, r, g, b, raw, hrgb, hraw, hrawB, hrawEq, -, hclen,
      hout⟩ := cpng_ok_struct hok
    have hp := (parse_of_out (ihdr_isBytes (by norm_num))
      (by rw [ihdr_length]; norm_num) (zlibCompress_isBytes hrawB) hclen
      hout).2
    exact ⟨r, g, b, raw, hrgb, hraw, hrawEq, _, hp, rfl⟩

set_option maxRecDepth 1000000 in
theorem C5_idat_scanlines_witness :
    ∃ raw, rawDataRGBA [[[1, 2, 3, 4]]] = .ok raw ∧
      raw = (([[[1, 2, 3, 4]]] : Buffer).map
        (fun row => 0 :: row.flatten)).flatten ∧
      ∃ cs, parseChunksGo ([137, 80, 78, 71, 13, 10, 26, 10, 0, 0, 0, 13,
        73, 72, 68, 82, 0, 0, 0, 1, 0, 0, 0, 1, 8, 6, 0, 0, 0, 31, 21, 196,
        137, 0, 0, 0, 16, 73, 68, 65, 84, 120, 218, 1, 5, 0, 250, 255, 0, 1,
        2, 3, 4, 0, 25, 0, 11, 167, 90, 81, 156, 0, 0, 0, 0, 73, 69, 78, 68,
        174, 66, 96, 130] : List Nat).length
        (([137, 80, 78, 71, 13, 10, 26, 10, 0, 0, 0, 13, 73, 72, 68, 82, 0,
        0, 0, 1, 0, 0, 0, 1, 8, 6, 0, 0, 0, 31, 21, 196, 137, 0, 0, 0, 16,
        73, 68, 65, 84, 120, 218, 1, 5, 0, 250, 255, 0, 1, 2, 3, 4, 0, 25,
        0, 11, 167, 90, 81, 156, 0, 0, 0, 0, 73, 69, 78, 68, 174, 66, 96,
        130] : List Nat).drop 8) = some cs ∧
        (cs.filter (fun c => c.1 == typeIDAT)).map Prod.snd =
          [zlibCompress raw] :=
  C5_idat_scanlines.1 1 1 [[[1, 2, 3, 4]]] _ (by rfl)

/-- C6: every chunk is framed as big-endian payload length, 4-byte type
tag, payload, then the big-endian CRC32 of tag plus payload computed with
the standard reflected 0xEDB88320 algorithm, and changing any single
payload byte changes the CRC32, so corruption is detected. -/
theorem C6_chunk_framing_crc :
    (∀ (t d out : List Nat), create_chunk t d = .ok out →
      out = be32 d.length ++ t ++ d ++ be32 (crc32 (t ++ d) % 2 ^ 32)) ∧
    (∀ (t d : List Nat), IsBytes t → IsBytes d →
      crc32 (t ++ d) % 2 ^ 32 = crc32 (t ++ d)) ∧
    (∀ (pre post : List Nat) (b bb : Nat), IsBytes pre → IsBytes post →
      b < 256 → bb < 256 → b ≠ bb →
      crc32 (pre ++ b :: post) ≠ crc32 (pre ++ bb :: post)) := by
  refine ⟨?_, ?_, fun pre post b bb h1 h2 h3 h4 h5 =>
    crc32_single_byte_ne h1 h2 h3 h4 h5⟩
  · intro t d out hok
    exact (create_chunk_ok hok).2
  · intro t d ht hd
    refine Nat.mod_eq_of_lt (crc32_lt ?_)
    intro x hx
    rcases List.mem_append.mp hx with hx | hx
    · exact ht x hx
    · exact hd x hx

set_option maxRecDepth 1000000 in
theorem C6_chunk_framing_crc_witness :
    ([0, 0, 0, 0, 73, 69, 78, 68, 174, 66, 96, 130] : List Nat) =
      be32 (List.length ([] : List Nat)) ++ typeIEND ++ [] ++
        be32 (crc32 (typeIEND ++ []) % 2 ^ 32) ∧
    crc32 ([] ++ 0 :: []) ≠ crc32 ([] ++ 1 :: []) :=
  ⟨C6_chunk_framing_crc.1 typeIEND [] _ (by rfl),
   C6_chunk_framing_crc.2.2 [] [] 0 1 (by decide) (by decide) (by decide)
     (by decide) (by decide)⟩

set_option maxRecDepth 1000000 in
/-- C7 counterexample: composing four 2x2 frames of colors A, B, C, D
does not produce a 4x4 image - the column count is fixed at 6, so the
sheet is 2 rows by 12 columns and the pixel lookup at (3,3) yields none,
not color D. -/
theorem C7_grid_counterexample :
    (createSpritesheetPixels
      [List.replicate 2 (List.replicate 2 [255, 0, 0, 255]),
       List.replicate 2 (List.replicate 2 [0, 255, 0, 255]),
       List.replicate 2 (List.replicate 2 [0, 0, 255, 255]),
       List.replicate 2 (List.replicate 2 [255, 255, 255, 255])] 2 2).bind
      (fun s => getPixel s 3 3) = none ∧
    (createSpritesheetPixels
      [List.replicate 2 (List.replicate 2 [255, 0, 0, 255]),
       List.replicate 2 (List.replicate 2 [0, 255, 0, 255]),
       List.replicate 2 (List.replicate 2 [0, 0, 255, 255]),
       List.replicate 2 (List.replicate 2 [255, 255, 255, 255])] 2 2).map
      List.length = some 2 :=
  ⟨by rfl, by rfl⟩

set_option maxRecDepth 1000000 in
/-- C7 amended: frames are laid out row-major on a grid with a fixed
count of 6 columns, every sheet position not covered by a frame holds
the fully transparent pixel (0,0,0,0), and the four-frame 2x2
composition yields a 2-row by 12-column sheet whose pixel (0,0) is
color A and whose pixel (1,7), the bottom-right of frame D's cell, is
color D. -/
theorem C7_layout_amended :
    (∀ (frames : List Buffer) (fw fh : Nat), 0 < fw → 0 < fh →
      ∃ sheet, createSpritesheetPixels frames fw fh = some sheet ∧
        sheet.length = (frames.length + 6 - 1) / 6 * fh ∧
        RowsOk sheet (6 * fw) ∧
        ∀ y x, y < (frames.length + 6 - 1) / 6 * fh → x < 6 * fw →
          ¬(y / fh * 6 + x / fw < frames.length ∧
            y % fh < (frames.getD (y / fh * 6 + x / fw) []).length ∧
            x % fw < ((frames.getD (y / fh * 6 + x / fw) []).getD
              (y % fh) []).length) →
          getPixel sheet y x = some [0, 0, 0, 0]) ∧
    (createSpritesheetPixels
      [List.replicate 2 (List.replicate 2 [255, 0, 0, 255]),
       List.replicate 2 (List.replicate 2 [0, 255, 0, 255]),
       List.replicate 2 (List.replicate 2 [0, 0, 255, 255]),
       List.replicate 2 (List.replicate 2 [255, 255, 255, 255])] 2 2).bind
      (fun s => getPixel s 0 0) = some [255, 0, 0, 255] ∧
    (createSpritesheetPixels
      [List.replicate 2 (List.replicate 2 [255, 0, 0, 255]),
       List.replicate 2 (List.replicate 2 [0, 255, 0, 255]),
       List.replicate 2 (List.replicate 2 [0, 0, 255, 255]),
       List.replicate 2 (List.replicate 2 [255, 255, 255, 255])] 2 2).bind
      (fun s => getPixel s 1 7) = some [255, 255, 255, 255] :=
  ⟨fun frames fw fh hfw hfh => sheet_uncovered frames hfw hfh,
   by rfl, by rfl⟩

theorem C7_layout_amended_witness :
    ∃ sheet, createSpritesheetPixels [] 1 1 = some sheet := by
  obtain ⟨sheet, hs, -⟩ := C7_layout_amended.1 [] 1 1 (by norm_num)
    (by norm_num)
  exact ⟨sheet, hs⟩

/-- C8: the encoder is deterministic - in this pure embedding two
encodings of the same input are the same byte sequence. -/
theorem C8_deterministic :
    ∀ (w h : Nat) (pixels : Buffer) (rgb : List Nat) (frames : List Buffer)
      (fw fh : Nat),
      create_image_from_pixels w h pixels =
        create_image_from_pixels w h pixels ∧
      create_png w h rgb = create_png w h rgb ∧
      create_spritesheet frames fw fh = create_spritesheet frames fw fh :=
  fun _ _ _ _ _ _ _ => ⟨rfl, rfl, rfl⟩

/-- C9: the min-clamped copy loops make the sheet construction total -
it never raises an index error for any frames and cell size - and a
placed frame, however oversized or ragged, never changes any pixel
outside its own cell. -/
theorem C9_clipping_safe :
    (∀ (frames : List Buffer) (fw fh : Nat),
      ∃ sheet, createSpritesheetPixels frames fw fh = some sheet) ∧
    (∀ (W fw fh : Nat) (frame g : Buffer) (sy sx : Nat),
      RowsOk g W → sy + fh ≤ g.length → sx + fw ≤ W →
      ∃ g2, placeFrame g sy sx fw fh frame = some g2 ∧
        ∀ y x, y < sy ∨ sy + fh ≤ y ∨ x < sx ∨ sx + fw ≤ x →
          getPixel g2 y x = getPixel g y x) := by
  constructor
  · intro frames fw fh
    obtain ⟨sheet, hs, -⟩ := createSpritesheetPixels_spec frames fw fh
    exact ⟨sheet, hs⟩
  · intro W fw fh frame g sy sx hrows hy hx
    obtain ⟨g2, hg2, -, -, hun⟩ :=
      placeFrame_spec W fw fh frame g sy sx hrows hy hx
    refine ⟨g2, hg2, ?_⟩
    intro y x hcond
    refine hun y x ?_
    intro y2 hy2 x2 hx2 hcontra
    obtain ⟨rfl, rfl⟩ := hcontra
    have h1 : y2 < fh := lt_of_lt_of_le hy2 (Nat.min_le_right _ _)
    have h2 : x2 < fw := lt_of_lt_of_le hx2 (Nat.min_le_right _ _)
    rcases hcond with hc | hc | hc | hc <;> omega

theorem C9_clipping_safe_witness :
    ∃ g2, placeFrame [[[1, 1, 1, 1]]] 0 0 1 1
        [[[2, 2, 2, 2]], [[3, 3, 3, 3]]] = some g2 ∧
      ∀ y x, y < 0 ∨ 0 + 1 ≤ y ∨ x < 0 ∨ 0 + 1 ≤ x →
        getPixel g2 y x = getPixel [[[1, 1, 1, 1]]] y x :=
  C9_clipping_safe.2 1 1 1 [[[2, 2, 2, 2]], [[3, 3, 3, 3]]] [[[1, 1, 1, 1]]]
    0 0
    (by
      intro j r hj
      match j, hj with
      | 0, hj =>
        cases hj
        rfl
      | j + 1, hj => simp at hj)
    (by norm_num) (by norm_num)

/-- C10: draw_sprite maps every character present in the colors table to
its color and every other character to the fully transparent pixel,
producing one row per pattern line with one pixel per character. -/
theorem C10_draw_sprite_spec :
    ∀ (pattern : List (List Char)) (colors : Char → Option Pixel),
      (draw_sprite pattern colors).length = pattern.length ∧
      (∀ i : Nat, ((draw_sprite pattern colors)[i]?).map List.length =
        (pattern[i]?).map List.length) ∧
      (∀ i j : Nat,
        ((draw_sprite pattern colors)[i]?).bind (fun row => row[j]?) =
          ((pattern[i]?).bind (fun ln => ln[j]?)).map
            (fun c => (colors c).getD [0, 0, 0, 0])) := by
  intro pattern colors
  refine ⟨by simp [draw_sprite], ?_, ?_⟩
  · intro i
    simp only [draw_sprite, List.getElem?_map]
    cases pattern[i]? <;> simp
  · intro i j
    simp only [draw_sprite, List.getElem?_map]
    cases hpi : pattern[i]? with
    | none => rfl
    | some ln =>
      simp only [Option.map_some', Option.some_bind, List.getElem?_map]
      cases hlj : ln[j]? with
      | none => rfl
      | some c =>
        simp only [Option.map_some']
        cases colors c <;> rfl

end PNGGen
